import Mathlib

/-!
# universal-image-downloader: verification of `server.js`

Shallow embedding of the queue manager, the URL resolver, the scrape
orchestrator, the dedup/download pipeline and the history store of
`src/server.js`, with the properties of the specification settled on it.

JavaScript strings are embedded as `String`; every operation that counts
UTF-16 code units (`.length`, a regular expression without the `u` flag)
goes through `jsUnits`, which counts two units for a character outside the
Basic Multilingual Plane.
-/

set_option maxRecDepth 100000

namespace Server

/-! ## Queue manager (`searchQueue`, `isScanning`, `currentAbortController`) -/

/-- The payload of a `start-download` message: `{ url, loopMode, showBrowser }`. -/
structure Job where
  url : String
  loopMode : Bool
  showBrowser : Bool
deriving DecidableEq, Repr

/-- What the socket receives from the queue manager. -/
inductive QEmit where
  | queueUpdate (n : Nat)
  | log (msg : String)
  | queueEmpty
deriving DecidableEq, Repr

/-- The module-level variables of `server.js`, with two ghost fields:
`running` lists the `startScraping` invocations that have been called and have
not yet settled (each with the id of the abort controller it was given), and
`started` logs every `startScraping` invocation in call order.
Abort controllers are numbered in creation order; `aborted` holds the ids of
those whose `abort()` has been called. -/
structure QueueState where
  searchQueue : List Job
  isScanning : Bool
  currentAbortController : Option Nat
  nextController : Nat
  aborted : List Nat
  running : List (Job × Nat)
  started : List Job
  emitted : List QEmit
deriving DecidableEq, Repr

/-- The state when the module is loaded: `searchQueue = []`,
`isScanning = false`, `currentAbortController = null`. -/
def QueueState.init : QueueState :=
  { searchQueue := [], isScanning := false, currentAbortController := none,
    nextController := 0, aborted := [], running := [], started := [], emitted := [] }

/-- The statement `if (currentAbortController) currentAbortController.abort()`. -/
def abortCurrent (s : QueueState) : QueueState :=
  match s.currentAbortController with
  | some c => { s with aborted := c :: s.aborted }
  | none => s

/-- The synchronous part of `processQueue`, up to the call of `startScraping`
(whose promise is then awaited): the guard, the flag, the shift, the
`queue-update` message, the replacement of the abort controller. -/
def processQueue (s : QueueState) : QueueState :=
  if s.isScanning || s.searchQueue.length == 0 then s
  else
    match s.searchQueue with
    | [] => s
    | task :: rest =>
      let s1 := { s with isScanning := true, searchQueue := rest,
                         emitted := s.emitted ++ [QEmit.queueUpdate rest.length] }
      let s2 := abortCurrent s1
      { s2 with currentAbortController := some s2.nextController,
                nextController := s2.nextController + 1,
                running := s2.running ++ [(task, s2.nextController)],
                started := s2.started ++ [task] }

/-- How an awaited `startScraping` settles: it resolved after emitting a
`done` of the given status (or none), or it rejected and the `catch` of
`processQueue` logged the message. -/
inductive Outcome where
  | completed
  | stopped
  | error
  | silent
  | thrown
deriving DecidableEq, Repr

/-- The `finally` block of `processQueue`, run when the `i`-th invocation in
progress settles (with whatever outcome): the flag is lowered and, when the
queue is not empty, `processQueue` is called again. Nothing happens when no
such invocation is in progress. -/
def jobEnd (s : QueueState) (i : Nat) (_o : Outcome) : QueueState :=
  if i < s.running.length then
    let s1 := { s with running := s.running.eraseIdx i, isScanning := false }
    if s1.searchQueue.length > 0 then
      processQueue { s1 with emitted := s1.emitted ++ [QEmit.log "⏳ Starting next task in queue..."] }
    else
      { s1 with emitted := s1.emitted ++ [QEmit.log "✅ All tasks completed.", QEmit.queueEmpty] }
  else s

/-- The `start-download` handler: push, two messages, `processQueue`. -/
def startDownload (s : QueueState) (data : Job) : QueueState :=
  let q := s.searchQueue ++ [data]
  processQueue { s with searchQueue := q,
                        emitted := s.emitted ++
                          [QEmit.log ("📝 Added to Queue. Position: " ++ toString q.length),
                           QEmit.queueUpdate q.length] }

/-- The `stop-download` handler. -/
def stopDownload (s : QueueState) : QueueState := abortCurrent s

/-- The `clear-queue` handler. -/
def clearQueue (s : QueueState) : QueueState :=
  abortCurrent { s with searchQueue := [],
                        emitted := s.emitted ++
                          [QEmit.queueUpdate 0, QEmit.log "🗑️ Queue Cleared. Stopping all..."] }

/-- The steps of the queue state machine. -/
inductive QStep where
  | startDownload (data : Job)
  | jobEnd (i : Nat) (o : Outcome)
  | stopDownload
  | clearQueue
deriving DecidableEq, Repr

/-- One step of the queue state machine. -/
def qstep (s : QueueState) : QStep → QueueState
  | .startDownload data => startDownload s data
  | .jobEnd i o => jobEnd s i o
  | .stopDownload => stopDownload s
  | .clearQueue => clearQueue s

/-- The state after a sequence of steps, from a given state. -/
def qrunFrom (s : QueueState) (steps : List QStep) : QueueState :=
  steps.foldl qstep s

/-- The state after a sequence of steps, from the initial state. -/
def qrun (steps : List QStep) : QueueState := qrunFrom QueueState.init steps

/-- The jobs submitted by a sequence of steps, in submission order. -/
def submitted : List QStep → List Job
  | [] => []
  | .startDownload data :: rest => data :: submitted rest
  | _ :: rest => submitted rest

/-- The invariant of the queue manager: at most one invocation is in
progress, and the flag is up exactly when one is. -/
def SingleFlight (s : QueueState) : Prop :=
  s.running.length ≤ 1 ∧ (s.isScanning = true ↔ s.running.length = 1)

/-- When no invocation is in progress the queue is empty: the manager never
sits idle on a waiting job. -/
def NoStall (s : QueueState) : Prop := s.isScanning = false → s.searchQueue = []


/-! ## JavaScript string primitives -/

/-- The number of UTF-16 code units of a character. -/
def jsUnits (c : Char) : Nat := if c.toNat < 0x10000 then 1 else 2

/-- The `.length` of a JavaScript string: its number of UTF-16 code units. -/
def jsLength (s : String) : Nat := (s.data.map jsUnits).sum

/-- Whether `p` is an initial segment of `s` (on character lists). -/
def startsWithL : List Char → List Char → Bool
  | _, [] => true
  | [], _ :: _ => false
  | c :: s, d :: p => c == d && startsWithL s p

/-- The method `s.startsWith(p)`. -/
def startsWith (s p : String) : Bool := startsWithL s.data p.data

/-- Whether `p` occurs in `s` as a contiguous run (on character lists). -/
def includesL : List Char → List Char → Bool
  | [], p => startsWithL [] p
  | c :: s, p => startsWithL (c :: s) p || includesL s p

/-- The method `s.includes(p)`. -/
def includes (s p : String) : Bool := includesL s.data p.data

/-- The lower-case mapping of one character, as far as ASCII is concerned:
`A`..`Z` go to `a`..`z`, U+0130 goes to `i` followed by U+0307 and U+212A
(Kelvin sign) goes to `k`. These are the only characters whose lower-case
form contains an ASCII character; every other character has a lower-case
form outside ASCII and is left as it is here, which no test against an ASCII
keyword can tell apart. -/
def lowerChar (c : Char) : List Char :=
  if 'A'.toNat ≤ c.toNat ∧ c.toNat ≤ 'Z'.toNat then [Char.ofNat (c.toNat + 32)]
  else if c.toNat = 0x130 then ['i', Char.ofNat 0x307]
  else if c.toNat = 0x212A then ['k']
  else [c]

/-- The method `s.toLowerCase()`. -/
def toLowerCase (s : String) : String := String.mk (s.data.flatMap lowerChar)

/-- Whether a character is matched by the class `[a-z0-9]` under the `i`
flag (without the `u` flag only ASCII letters fold onto `a`..`z`). -/
def isAlnum (c : Char) : Bool :=
  ('a'.toNat ≤ c.toNat && c.toNat ≤ 'z'.toNat) ||
  ('A'.toNat ≤ c.toNat && c.toNat ≤ 'Z'.toNat) ||
  ('0'.toNat ≤ c.toNat && c.toNat ≤ '9'.toNat)

/-- The call `s.replace(/[^a-z0-9]/gi, '_')`: every UTF-16 code unit that is
not an ASCII letter or digit becomes one underscore. -/
def sanitize (s : String) : String :=
  String.mk (s.data.flatMap fun c => if isAlnum c then [c] else List.replicate (jsUnits c) '_')

/-- Removal of the first occurrence of `pat` (on character lists). -/
def removeFirstL (pat : List Char) : List Char → List Char
  | [] => []
  | c :: s => if startsWithL (c :: s) pat then (c :: s).drop pat.length
              else c :: removeFirstL pat s

/-- The call `s.replace(/www\./, '')`: the pattern has no anchor and no `g`
flag, so the first occurrence of `www.` is removed, wherever it stands. -/
def removeWww (s : String) : String := String.mk (removeFirstL "www.".data s.data)

/-- The call `s.replace(/\./g, '_')`. -/
def dotsToUnderscores (s : String) : String :=
  String.mk (s.data.map fun c => if c = '.' then '_' else c)

/-- The upper-case hexadecimal digit of a number below 16. -/
def hexDigitUpper (n : Nat) : Char :=
  if n < 10 then Char.ofNat ('0'.toNat + n) else Char.ofNat ('A'.toNat + (n - 10))

/-- The UTF-8 bytes of a character. -/
def utf8Bytes (c : Char) : List Nat :=
  let n := c.toNat
  if n < 0x80 then [n]
  else if n < 0x800 then [0xC0 + n / 64, 0x80 + n % 64]
  else if n < 0x10000 then [0xE0 + n / 4096, 0x80 + n / 64 % 64, 0x80 + n % 64]
  else [0xF0 + n / 262144, 0x80 + n / 4096 % 64, 0x80 + n / 64 % 64, 0x80 + n % 64]

/-- The escape `%XX` of one byte. -/
def percentByte (b : Nat) : List Char := ['%', hexDigitUpper (b / 16), hexDigitUpper (b % 16)]

/-- The characters `encodeURIComponent` leaves alone: ASCII letters, digits
and ``- _ . ! ~ * ' ( )``. -/
def uriUnreserved (c : Char) : Bool :=
  isAlnum c || "-_.!~*'()".data.contains c

/-- The function `encodeURIComponent`. -/
def encodeURIComponent (s : String) : String :=
  String.mk (s.data.flatMap fun c =>
    if uriUnreserved c then [c] else (utf8Bytes c).flatMap percentByte)

/-! ## Smart routing (`getSmartUrl`) and folder naming -/

/-- The `type` field of the result of `getSmartUrl`. -/
inductive ContentType where
  | url
  | png_search
  | photo_search
deriving DecidableEq, Repr

/-- The result `{ url, type }` of `getSmartUrl`. -/
structure SmartResult where
  url : String
  type : ContentType
deriving DecidableEq, Repr

/-- The function `getSmartUrl`. -/
def getSmartUrl (input : String) : SmartResult :=
  if startsWith input "http" then { url := input, type := .url }
  else
    let k := toLowerCase input
    if includes k "logo" || includes k "icon" || includes k "symbol" || includes k "png" then
      { url := "https://www.pngwing.com/en/search?q=" ++ encodeURIComponent input,
        type := .png_search }
    else
      { url := "https://unsplash.com/s/photos/" ++ encodeURIComponent input,
        type := .photo_search }

/-- The two fields of the result of the legacy `url.parse` that
`startScraping` reads; `none` is JavaScript `null`. -/
structure LegacyUrl where
  hostname : Option String
  pathname : Option String
deriving DecidableEq, Repr

/-- The folder-naming block of `startScraping` (the value of `folderName`),
over the legacy parser `urlParse`; `none` stands for the `TypeError` thrown
when `hostname` or `pathname` is `null`. -/
def folderName (urlParse : String → LegacyUrl) (userInput : String) : Option String :=
  let smartResult := getSmartUrl userInput
  if smartResult.type ≠ .url then
    some ("search_" ++ (if smartResult.type = .png_search then "logo" else "photo") ++ "_" ++
      sanitize userInput)
  else
    let parsed := urlParse smartResult.url
    match parsed.hostname with
    | none => none
    | some hostname =>
      let host := dotsToUnderscores (removeWww hostname)
      match parsed.pathname with
      | none => none
      | some pathname =>
        let pathClean := sanitize pathname
        let pathClean := if pathClean = "_" then "_home" else pathClean
        some (host ++ pathClean)

/-- The prefix of a character list before the first character satisfying `p`. -/
def takeUntil (p : Char → Bool) : List Char → List Char
  | [] => []
  | c :: s => if p c then [] else c :: takeUntil p s

/-- The legacy `url.parse` on plain web addresses
`http://host/path?query#fragment` and `https://...` whose host is lower-case
ASCII without user information or port and whose path holds no character the
parser escapes: the host runs up to the first `/`, `?` or `#`, the path up to
the first `?` or `#`, and an empty path is reported as `/`. Any other input is
reported without a host. -/
def urlParseBasic (input : String) : LegacyUrl :=
  let go (rest : List Char) : LegacyUrl :=
    let host := takeUntil (fun c => c == '/' || c == '?' || c == '#') rest
    let path := takeUntil (fun c => c == '?' || c == '#') (rest.drop host.length)
    if host.isEmpty then { hostname := none, pathname := none }
    else { hostname := some (String.mk host),
           pathname := some (if path.isEmpty then "/" else String.mk path) }
  if startsWith input "https://" then go (input.data.drop 8)
  else if startsWith input "http://" then go (input.data.drop 7)
  else { hostname := none, pathname := none }

/-- The host sanitizer as the specification words it: a leading `www.` is
removed and nothing else, then every dot becomes an underscore. -/
def specSanitizeHost (host : String) : String :=
  dotsToUnderscores (if startsWith host "www." then String.mk (host.data.drop 4) else host)

/-- The path sanitizer as the specification words it: every character that is
not an ASCII letter or digit becomes an underscore, and an empty or root path
gives `_home`. -/
def specSanitizePath (path : String) : String :=
  if path = "" ∨ path = "/" then "_home"
  else String.mk (path.data.map fun c => if isAlnum c then c else '_')

/-- The keywords that route an input to the icon search. -/
def pngKeywords : List String := ["logo", "icon", "symbol", "png"]

/-! ## History store (`getHistory`, `saveHistory`, `toggle-pin`, `remove-history`) -/

/-- One record of `history.json`: `{ url, folder, pinned, date }`. -/
structure HistoryEntry where
  url : String
  folder : String
  pinned : Bool
  date : Nat
deriving DecidableEq, Repr

/-- The function `getHistory`, over the content of the history file: `none`
is a file that is missing or does not parse, for which the `catch` returns
the empty list. -/
def getHistory (file : Option (List HistoryEntry)) : List HistoryEntry :=
  match file with
  | some history => history
  | none => []

/-- The function `saveHistory`: the list it writes to the file and returns. -/
def saveHistory (file : Option (List HistoryEntry)) (newEntry : HistoryEntry) :
    List HistoryEntry :=
  let history := getHistory file
  if (history.find? (fun h => h.url == newEntry.url)).isNone then newEntry :: history
  else history

/-- The mutation of the `toggle-pin` handler on the list read from the file:
the first entry with the given url has its `pinned` flag negated. -/
def togglePinList : List HistoryEntry → String → List HistoryEntry
  | [], _ => []
  | x :: rest, u =>
    if x.url == u then { x with pinned := !x.pinned } :: rest
    else x :: togglePinList rest u

/-- The `toggle-pin` handler: the list it writes to the file and emits. -/
def togglePin (file : Option (List HistoryEntry)) (u : String) : List HistoryEntry :=
  togglePinList (getHistory file) u

/-- The `remove-history` handler: the list it writes to the file and emits. -/
def removeHistory (file : Option (List HistoryEntry)) (u : String) : List HistoryEntry :=
  (getHistory file).filter (fun x => x.url != u)

/-- A history list is unique by url. -/
def UniqueByUrl (history : List HistoryEntry) : Prop :=
  (history.map (fun h => h.url)).Nodup

/-! ## The digest `crypto.createHash('md5').update(s).digest('hex')` -/

/-- The per-round shift amounts of MD5. -/
def md5Shifts : List Nat :=
  [7, 12, 17, 22, 7, 12, 17, 22, 7, 12, 17, 22, 7, 12, 17, 22,
   5, 9, 14, 20, 5, 9, 14, 20, 5, 9, 14, 20, 5, 9, 14, 20,
   4, 11, 16, 23, 4, 11, 16, 23, 4, 11, 16, 23, 4, 11, 16, 23,
   6, 10, 15, 21, 6, 10, 15, 21, 6, 10, 15, 21, 6, 10, 15, 21]

/-- The per-round additive constants of MD5. -/
def md5Consts : List Nat :=
  [0xd76aa478, 0xe8c7b756, 0x242070db, 0xc1bdceee, 0xf57c0faf, 0x4787c62a, 0xa8304613,
   0xfd469501, 0x698098d8, 0x8b44f7af, 0xffff5bb1, 0x895cd7be, 0x6b901122, 0xfd987193,
   0xa679438e, 0x49b40821, 0xf61e2562, 0xc040b340, 0x265e5a51, 0xe9b6c7aa, 0xd62f105d,
   0x02441453, 0xd8a1e681, 0xe7d3fbc8, 0x21e1cde6, 0xc33707d6, 0xf4d50d87, 0x455a14ed,
   0xa9e3e905, 0xfcefa3f8, 0x676f02d9, 0x8d2a4c8a, 0xfffa3942, 0x8771f681, 0x6d9d6122,
   0xfde5380c, 0xa4beea44, 0x4bdecfa9, 0xf6bb4b60, 0xbebfbc70, 0x289b7ec6, 0xeaa127fa,
   0xd4ef3085, 0x04881d05, 0xd9d4d039, 0xe6db99e5, 0x1fa27cf8, 0xc4ac5665, 0xf4292244,
   0x432aff97, 0xab9423a7, 0xfc93a039, 0x655b59c3, 0x8f0ccc92, 0xffeff47d, 0x85845dd1,
   0x6fa87e4f, 0xfe2ce6e0, 0xa3014314, 0x4e0811a1, 0xf7537e82, 0xbd3af235, 0x2ad7d2bb,
   0xeb86d391]

/-- Rotation to the left of a 32-bit word. -/
def rotl32 (x c : Nat) : Nat := ((x <<< c) ||| (x >>> (32 - c))) % 2 ^ 32

/-- Complement of a 32-bit word. -/
def not32 (x : Nat) : Nat := x ^^^ 0xffffffff

/-- The `k` low bytes of a number, least significant first. -/
def bytesLE : Nat → Nat → List Nat
  | 0, _ => []
  | k + 1, n => n % 256 :: bytesLE k (n / 256)

/-- The message with the MD5 padding: the bit `1`, zeros up to 56 modulo 64
bytes, and the bit length on eight bytes. -/
def md5Pad (bytes : List Nat) : List Nat :=
  bytes ++ [0x80] ++ List.replicate ((119 - bytes.length % 64) % 64) 0 ++
    bytesLE 8 (8 * bytes.length % 2 ^ 64)

/-- The little-endian 32-bit words of a byte list. -/
def wordsLE : Nat → List Nat → List Nat
  | 0, _ => []
  | k + 1, b0 :: b1 :: b2 :: b3 :: rest =>
    (b0 + 256 * b1 + 65536 * b2 + 16777216 * b3) :: wordsLE k rest
  | _ + 1, _ => []

/-- The four chaining words of MD5. -/
structure Md5State where
  a : Nat
  b : Nat
  c : Nat
  d : Nat
deriving DecidableEq, Repr

/-- One of the 64 operations of MD5 on the block `m`. -/
def md5Op (m : List Nat) (st : Md5State) (i : Nat) : Md5State :=
  let f :=
    if i < 16 then (st.b &&& st.c) ||| (not32 st.b &&& st.d)
    else if i < 32 then (st.d &&& st.b) ||| (not32 st.d &&& st.c)
    else if i < 48 then st.b ^^^ st.c ^^^ st.d
    else st.c ^^^ (st.b ||| not32 st.d)
  let g :=
    if i < 16 then i
    else if i < 32 then (5 * i + 1) % 16
    else if i < 48 then (3 * i + 5) % 16
    else (7 * i) % 16
  let x := (f + st.a + md5Consts.getD i 0 + m.getD g 0) % 2 ^ 32
  { a := st.d, b := (st.b + rotl32 x (md5Shifts.getD i 0)) % 2 ^ 32, c := st.b, d := st.c }

/-- The compression of one 64-byte block into the chaining words. -/
def md5Block (st : Md5State) (block : List Nat) : Md5State :=
  let r := (List.range 64).foldl (md5Op (wordsLE 16 block)) st
  { a := (st.a + r.a) % 2 ^ 32, b := (st.b + r.b) % 2 ^ 32,
    c := (st.c + r.c) % 2 ^ 32, d := (st.d + r.d) % 2 ^ 32 }

/-- The compression of the first `n` blocks of a padded message. -/
def md5Blocks : Nat → Md5State → List Nat → Md5State
  | 0, st, _ => st
  | n + 1, st, bytes => md5Blocks n (md5Block st (bytes.take 64)) (bytes.drop 64)

/-- The lower-case hexadecimal digit of a number below 16. -/
def hexDigitLower (n : Nat) : Char :=
  if n < 10 then Char.ofNat ('0'.toNat + n) else Char.ofNat ('a'.toNat + (n - 10))

/-- The MD5 digest of a byte list, in lower-case hexadecimal. -/
def md5HexBytes (bytes : List Nat) : List Char :=
  let padded := md5Pad bytes
  let st := md5Blocks (padded.length / 64)
    { a := 0x67452301, b := 0xefcdab89, c := 0x98badcfe, d := 0x10325476 } padded
  (bytesLE 4 st.a ++ bytesLE 4 st.b ++ bytesLE 4 st.c ++ bytesLE 4 st.d).flatMap
    fun b => [hexDigitLower (b / 16), hexDigitLower (b % 16)]

/-- The digest `crypto.createHash('md5').update(s).digest('hex')` of a
string, taken over its UTF-8 bytes. -/
def md5hex (s : String) : String := String.mk (md5HexBytes (s.data.flatMap utf8Bytes))

/-! ## Canonical URL and file name (`processBatch`, per URL) -/

/-- What `new URL(s)` holds, as far as `processBatch` uses it: `base` is the
serialization of everything before the query (scheme, authority and path),
`params` is the list behind `searchParams`, in order, with names and values
decoded, and `fragment` is the part after `#` (`none` when there is none). -/
structure UrlRecord where
  base : String
  params : List (String × String)
  fragment : Option String
deriving DecidableEq, Repr

/-- The bytes the `application/x-www-form-urlencoded` serializer leaves alone:
ASCII letters and digits and `*`, `-`, `.`, `_`. -/
def formSafe (c : Char) : Bool := isAlnum c || "*-._".data.contains c

/-- The `application/x-www-form-urlencoded` encoding of a name or value. -/
def formEncode (s : String) : List Char :=
  s.data.flatMap fun c =>
    if formSafe c then [c] else if c = ' ' then ['+'] else (utf8Bytes c).flatMap percentByte

/-- The `application/x-www-form-urlencoded` serialization of a parameter list. -/
def serializeParams : List (String × String) → List Char
  | [] => []
  | [(n, v)] => formEncode n ++ '=' :: formEncode v
  | (n, v) :: rest => formEncode n ++ '=' :: formEncode v ++ '&' :: serializeParams rest

/-- The method `u.toString()` once `searchParams` has been mutated: the query
is the serialization of the list, and is dropped with its `?` when the list
is empty. -/
def UrlRecord.href (u : UrlRecord) : String :=
  String.mk (u.base.data ++
    (if u.params.isEmpty then [] else '?' :: serializeParams u.params) ++
    (match u.fragment with
     | some f => '#' :: f.data
     | none => []))

/-- The parameter names that `processBatch` deletes. -/
def strippedParams : List String := ["w", "h", "width", "height", "resize"]

/-- The method `searchParams.delete(p)`: every pair named `p` goes. -/
def deleteParam (params : List (String × String)) (p : String) : List (String × String) :=
  params.filter fun nv => nv.1 != p

/-- The statement
`['w', 'h', 'width', 'height', 'resize'].forEach(p => u.searchParams.delete(p))`. -/
def stripParams (params : List (String × String)) : List (String × String) :=
  strippedParams.foldl deleteParam params

/-- The canonical URL of a parsed URL. -/
def canonical (u : UrlRecord) : String :=
  UrlRecord.href { u with params := stripParams u.params }

/-- The value of `cleanUrl` for an image URL, over the parser `parseURL`
(`new URL`, `none` when it throws): the canonical URL, or the raw string when
the URL does not parse. -/
def cleanUrlOf (parseURL : String → Option UrlRecord) (imgUrl : String) : String :=
  match parseURL imgUrl with
  | some u => canonical u
  | none => imgUrl

/-- The variables of the scanning loop of `path.extname` (POSIX flavour);
`none` is the initial `-1` of `startDot` and `end`. -/
structure ExtScan where
  startDot : Option Nat
  startPart : Nat
  endIdx : Option Nat
  matchedSlash : Bool
  preDotState : Int
deriving DecidableEq, Repr

/-- The body of the loop of `path.extname` for a character other than `/`,
at index `ic.1`. -/
def scanChar (st : ExtScan) (ic : Nat × Char) : ExtScan :=
  let st1 := if st.endIdx.isNone then { st with matchedSlash := false, endIdx := some (ic.1 + 1) }
             else st
  if ic.2 = '.' then
    if st1.startDot.isNone then { st1 with startDot := some ic.1 }
    else if st1.preDotState ≠ 1 then { st1 with preDotState := 1 }
    else st1
  else if st1.startDot.isSome then { st1 with preDotState := -1 }
  else st1

/-- The loop of `path.extname`, over the characters from the last to the
first, each with its index; it stops at the first `/` that follows a
character other than `/`. -/
def extnameLoop : List (Nat × Char) → ExtScan → ExtScan
  | [], st => st
  | (i, c) :: rest, st =>
    if c = '/' then
      if !st.matchedSlash then { st with startPart := i + 1 }
      else extnameLoop rest st
    else extnameLoop rest (scanChar st (i, c))

/-- The variables of `path.extname` before its loop. -/
def ExtScan.init : ExtScan :=
  { startDot := none, startPart := 0, endIdx := none, matchedSlash := true, preDotState := 0 }

/-- The function `path.extname` (POSIX flavour). -/
def extname (path : String) : String :=
  let st := extnameLoop path.data.enum.reverse ExtScan.init
  match st.startDot, st.endIdx with
  | some startDot, some endIdx =>
    if st.preDotState = 0 ∨
        (st.preDotState = 1 ∧ startDot = endIdx - 1 ∧ startDot = st.startPart + 1) then ""
    else String.mk ((path.data.drop startDot).take (endIdx - startDot))
  | _, _ => ""

/-- The value of `ext` after the three statements that compute it. -/
def deriveExt (searchType : ContentType) (cleanUrl : String) : String :=
  let ext0 := String.mk (takeUntil (fun c => c == '?') (extname cleanUrl).data)
  let ext1 := if ext0 = "" then ".jpg" else ext0
  let ext2 := if searchType = .png_search ∧ ¬ includes ext1 "png" then ".png" else ext1
  if jsLength ext2 > 5 then ".jpg" else ext2

/-- The value of `hash`: the first ten characters of the digest. -/
def hashOf (cleanUrl : String) : String := String.mk ((md5hex cleanUrl).data.take 10)

/-- The file name `hash + ext` that `processBatch` joins to the folder path. -/
def fileName (searchType : ContentType) (cleanUrl : String) : String :=
  hashOf cleanUrl ++ deriveExt searchType cleanUrl

/-- The pieces of a character list between the occurrences of `sep`. -/
def splitOnChar (sep : Char) : List Char → List (List Char)
  | [] => [[]]
  | c :: s =>
    if c = sep then [] :: splitOnChar sep s
    else
      match splitOnChar sep s with
      | [] => [[c]]
      | p :: ps => (c :: p) :: ps

/-- The constructor `new URL(s)` on plain web addresses
`http://host/path?query#fragment` and `https://...` that are already in
serialized form (lower-case ASCII host, no character that the parser would
escape or decode, no empty parameter): the base runs up to the first `?` or
`#` (with `/` for an empty path), the query is cut at `&` and each piece at its
first `=`. Any other input is reported as a failure. -/
def parseURLBasic (input : String) : Option UrlRecord :=
  if startsWith input "https://" || startsWith input "http://" then
    let base := takeUntil (fun c => c == '?' || c == '#') input.data
    let afterBase := input.data.drop base.length
    let query := takeUntil (fun c => c == '#') (afterBase.drop 1)
    let hasQuery := startsWithL afterBase ['?']
    let afterQuery := if hasQuery then afterBase.drop (1 + query.length) else afterBase
    let pieces := if hasQuery then splitOnChar '&' query else []
    let params := (pieces.filter (fun p => !p.isEmpty)).map fun p =>
      let n := takeUntil (fun c => c == '=') p
      (String.mk n, String.mk (p.drop (n.length + 1)))
    let slashes := (base.filter (fun c => c == '/')).length
    some { base := String.mk (if slashes < 3 then base ++ ['/'] else base),
           params := params,
           fragment := if startsWithL afterQuery ['#'] then some (String.mk (afterQuery.drop 1))
                       else none }
  else none

/-- The extension rule as the specification words it, on the path of the
canonical URL: the extension of the path, `.jpg` when there is none or it is
longer than five characters, and then `.png` when the content type is
`png_search` and the extension does not contain `png`. -/
def specExt (searchType : ContentType) (urlPath : String) : String :=
  let ext0 := extname urlPath
  let ext1 := if ext0 = "" ∨ jsLength ext0 > 5 then ".jpg" else ext0
  if searchType = .png_search ∧ ¬ includes ext1 "png" then ".png" else ext1

/-- The part of a character list that starts at its last dot, if it has one. -/
def fromLastDot : List Char → Option (List Char)
  | [] => none
  | c :: s =>
    match fromLastDot s with
    | some r => some r
    | none => if c = '.' then some (c :: s) else none

/-- The extension of one path segment, in plain words: the part from the last
dot, unless the only dot that could start it is the first character of the
segment or the segment is `..`. -/
def segmentExt : List Char → List Char
  | [] => []
  | c :: s =>
    match fromLastDot s with
    | none => []
    | some r => if c :: s = ['.', '.'] then [] else r

/-! ## The scraper (`startScraping`, `processBatch`) -/

/-- The `status` field of a `done` message. -/
inductive Status where
  | completed
  | stopped
  | error
deriving DecidableEq, Repr

/-- What the socket receives from `startScraping`. A `done` message carries
its `folderPath` (`none` when the field is `null` or absent) and its status. -/
inductive Emit where
  | log (msg : String)
  | updateHistory (history : List HistoryEntry)
  | progress (percent saved skipped total : Nat)
  | done (folderPath : Option String) (status : Status)
deriving DecidableEq, Repr

/-- One call of `downloadFile`, as a ghost record: the element of `newBatch`
it is made for, the URL fetched, the file name written, the content of
`seenUrls` at the call, and whether the promise resolved. -/
structure Attempt where
  imgUrl : String
  url : String
  file : String
  seenAtCall : List String
  ok : Bool
deriving DecidableEq, Repr

/-- What one job meets outside the program. A failure is the message of the
error thrown. Reads of `abortSignal.aborted`, calls of `downloadFile`, scroll
evaluations and extractions are numbered from 0 within the job. -/
structure JobEnv where
  urlParse : String → LegacyUrl
  parseURL : String → Option UrlRecord
  downloadsDir : String
  folderExists : Bool
  mkdirError : Option String
  launchError : Option String
  newPageError : Option String
  historyError : Option String
  closeError : Option String
  scrollError : Nat → Option String
  extract : Nat → Except String (List String)
  aborted : Nat → Bool
  download : Nat → String → Bool
  now : Nat

/-- The state one job acts on: the messages emitted, the history file, the
names of the files in the target folder, the set `seenUrls` (in insertion
order), whether the browser is open, and the counters and the ghost log that
index the environment. -/
structure JobState where
  emitted : List Emit
  historyFile : Option (List HistoryEntry)
  files : List String
  seenUrls : List String
  browser : Bool
  reads : Nat
  scrolls : Nat
  batches : Nat
  attempts : List Attempt
deriving DecidableEq, Repr

/-- The method `seenUrls.add(u)`. -/
def setAdd (seen : List String) (u : String) : List String :=
  if seen.contains u then seen else seen ++ [u]

/-- The `for` loop of `processBatch` over what is left of `newBatch`, with
the running value of `savedCount`. A download that resolves adds its file name
to the folder; one that rejects adds nothing. -/
def batchLoop (env : JobEnv) (searchType : ContentType) :
    List String → Nat → JobState → Nat × JobState
  | [], savedCount, st => (savedCount, st)
  | imgUrl :: rest, savedCount, st =>
    let st1 := { st with reads := st.reads + 1 }
    if env.aborted st.reads then (savedCount, st1)
    else
      let st2 := { st1 with seenUrls := setAdd st1.seenUrls imgUrl }
      let cleanUrl := cleanUrlOf env.parseURL imgUrl
      let file := fileName searchType cleanUrl
      if st2.files.contains file then batchLoop env searchType rest savedCount st2
      else
        let ok := env.download st2.attempts.length cleanUrl
        let st3 := { st2 with
          attempts := st2.attempts ++
            [{ imgUrl := imgUrl, url := cleanUrl, file := file, seenAtCall := st2.seenUrls,
               ok := ok }],
          files := if ok then st2.files ++ [file] else st2.files }
        batchLoop env searchType rest (if ok then savedCount + 1 else savedCount) st3

/-- The value of `newBatch`: the extracted URLs that `seenUrls` does not hold. -/
def newBatchOf (foundImages seenUrls : List String) : List String :=
  foundImages.filter fun u => !seenUrls.contains u

/-- The function `processBatch` from the extracted list on (the lines after
`page.evaluate`): the value returned and the state left. -/
def processBatchOn (env : JobEnv) (searchType : ContentType) (foundImages : List String)
    (st : JobState) : Nat × JobState :=
  batchLoop env searchType (newBatchOf foundImages st.seenUrls) 0 st

/-- The function `processBatch`: the extraction, which may reject, and then
the rest. -/
def processBatch (env : JobEnv) (searchType : ContentType) (st : JobState) :
    Except String Nat × JobState :=
  let st1 := { st with batches := st.batches + 1 }
  match env.extract st.batches with
  | .error msg => (.error msg, st1)
  | .ok foundImages =>
    let r := processBatchOn env searchType foundImages st1
    (.ok r.1, r.2)

/-- The message of the error thrown by the cancellation check at job start. -/
def stoppedByUser : String := "Stopped by user"

/-- The `while (!abortSignal.aborted)` loop of the loop mode, with the
running value of `totalDownloaded`. The result is the state and the message of
the error thrown, if any; `none` is a loop still running when the fuel is
used up. -/
def loopScan (env : JobEnv) (searchType : ContentType) :
    Nat → Nat → JobState → Option (JobState × Option String)
  | 0, _, _ => none
  | fuel + 1, totalDownloaded, st =>
    let st1 := { st with reads := st.reads + 1 }
    if env.aborted st.reads then some (st1, none)
    else
      let st2 := { st1 with scrolls := st1.scrolls + 1 }
      match env.scrollError st1.scrolls with
      | some msg => some (st2, some msg)
      | none =>
        match processBatch env searchType st2 with
        | (.error msg, st3) => some (st3, some msg)
        | (.ok newCount, st3) =>
          if newCount > 0 then
            loopScan env searchType fuel (totalDownloaded + newCount)
              { st3 with emitted := st3.emitted ++
                  [Emit.progress 100 (totalDownloaded + newCount) 0 st3.seenUrls.length] }
          else loopScan env searchType fuel totalDownloaded st3

/-- The standard mode: the scroll to the bottom, one batch, the two final
messages. -/
def boundedScan (env : JobEnv) (searchType : ContentType) (folderPath : String)
    (st : JobState) : JobState × Option String :=
  let st1 := { st with emitted := st.emitted ++ [Emit.log "⬇️ Standard Mode: Scanning..."],
                       scrolls := st.scrolls + 1 }
  match env.scrollError st.scrolls with
  | some msg => (st1, some msg)
  | none =>
    match processBatch env searchType st1 with
    | (.error msg, st2) => (st2, some msg)
    | (.ok newCount, st2) =>
      ({ st2 with emitted := st2.emitted ++
          [Emit.log ("✅ Finished. Saved: " ++ toString (0 + newCount)),
           Emit.done (some folderPath) Status.completed] }, none)

/-- The `try` block of `startScraping`: the state left, the value of
`folderPath` and the message of the error thrown, if any; `none` is a loop
still running when the fuel is used up. -/
def tryBlock (env : JobEnv) (userInput : String) (isLoopMode : Bool) (fuel : Nat)
    (st : JobState) : Option (JobState × Option String × Option String) :=
  if env.aborted st.reads then some ({ st with reads := st.reads + 1 }, none, some stoppedByUser)
  else
    let smartResult := getSmartUrl userInput
    let st := { st with reads := st.reads + 1,
                        emitted := st.emitted ++ [Emit.log ("▶️ Starting: " ++ userInput)] }
    match folderName env.urlParse userInput with
    | none => some (st, none, some "Cannot read properties of null (reading 'replace')")
    | some name =>
      let folderPath := env.downloadsDir ++ "/" ++ name
      match (if env.folderExists then none else env.mkdirError) with
      | some msg => some (st, some folderPath, some msg)
      | none =>
        match env.launchError with
        | some msg => some (st, some folderPath, some msg)
        | none =>
          let st := { st with browser := true }
          match env.newPageError with
          | some msg => some (st, some folderPath, some msg)
          | none =>
            let st := { st with emitted := st.emitted ++ [Emit.log "⏳ Loading page..."] }
            match env.historyError with
            | some msg => some (st, some folderPath, some msg)
            | none =>
              let history := saveHistory st.historyFile
                { url := userInput, folder := folderPath, pinned := false, date := env.now }
              let st := { st with historyFile := some history,
                                  emitted := st.emitted ++ [Emit.updateHistory history],
                                  seenUrls := [] }
              if isLoopMode then
                match loopScan env smartResult.type fuel 0
                    { st with emitted := st.emitted ++ [Emit.log "🔄 Infinite Loop Active."] } with
                | none => none
                | some (st, err) => some (st, some folderPath, err)
              else
                let r := boundedScan env smartResult.type folderPath st
                some (r.1, some folderPath, r.2)

/-- The `catch` block of `startScraping`. -/
def catchBlock (st : JobState) (folderPath : Option String) (message : String) : JobState :=
  if message = stoppedByUser then
    { st with emitted := st.emitted ++
        [Emit.log "🛑 Stopped/Skipped.", Emit.done folderPath Status.stopped] }
  else
    { st with emitted := st.emitted ++
        [Emit.log ("❌ Error: " ++ message), Emit.done none Status.error] }

/-- The function `startScraping`, run from a state to its end: the state
left and the message of the error it rejects with, if any (only
`browser.close()` in the `finally` block can make it reject); `none` is a job
still running when the fuel is used up. -/
def startScraping (env : JobEnv) (userInput : String) (isLoopMode : Bool) (fuel : Nat)
    (st : JobState) : Option (JobState × Option String) :=
  match tryBlock env userInput isLoopMode fuel st with
  | none => none
  | some (st1, folderPath, err) =>
    let st2 := match err with
      | some message => catchBlock st1 folderPath message
      | none => st1
    if st2.browser then some ({ st2 with browser := false }, env.closeError)
    else some (st2, none)

/-- The state a job starts from: nothing emitted, the given history file and
folder content, no browser. -/
def JobState.start (historyFile : Option (List HistoryEntry)) (files : List String) : JobState :=
  { emitted := [], historyFile := historyFile, files := files, seenUrls := [],
    browser := false, reads := 0, scrolls := 0, batches := 0, attempts := [] }

/-- The `done` messages among the messages emitted, by status. -/
def doneStatuses : List Emit → List Status
  | [] => []
  | Emit.done _ status :: rest => status :: doneStatuses rest
  | _ :: rest => doneStatuses rest

/-- An environment in which nothing fails, with the given extractions and
abort signal: the signal is seen set from the read numbered `abortFrom` on. -/
def quietEnv (extract : Nat → List String) (abortFrom : Nat) : JobEnv :=
  { urlParse := urlParseBasic, parseURL := parseURLBasic, downloadsDir := "downloads",
    folderExists := false, mkdirError := none, launchError := none, newPageError := none,
    historyError := none,
    closeError := none, scrollError := fun _ => none,
    extract := fun k => .ok (extract k),
    aborted := fun k => decide (abortFrom ≤ k),
    download := fun _ _ => true, now := 0 }

/-! ### Lemmas on the queue manager -/

theorem abortCurrent_fields (s : QueueState) :
    (abortCurrent s).searchQueue = s.searchQueue ∧
    (abortCurrent s).isScanning = s.isScanning ∧
    (abortCurrent s).running = s.running ∧
    (abortCurrent s).started = s.started ∧
    (abortCurrent s).nextController = s.nextController := by
  unfold abortCurrent
  cases s.currentAbortController <;> simp

theorem processQueue_singleFlight (s : QueueState) (h : SingleFlight s) :
    SingleFlight (processQueue s) := by
  obtain ⟨h1, h2⟩ := h
  unfold processQueue
  split
  · exact ⟨h1, h2⟩
  · rename_i hg
    split
    · exact ⟨h1, h2⟩
    · simp only [Bool.or_eq_true, not_or, Bool.not_eq_true] at hg
      have hlen : s.running.length = 0 := by
        have : ¬ s.running.length = 1 := fun h => by
          have := h2.mpr h
          simp [hg.1] at this
        omega
      simp [SingleFlight, abortCurrent_fields, hlen]

theorem qstep_singleFlight (s : QueueState) (e : QStep) (h : SingleFlight s) :
    SingleFlight (qstep s e) := by
  cases e with
  | startDownload data =>
    exact processQueue_singleFlight _ h
  | jobEnd i o =>
    simp only [qstep, jobEnd]
    split
    · rename_i hi
      have hlen : s.running.length = 1 := by have := h.1; omega
      have hbase : ∀ em, SingleFlight
          { s with running := s.running.eraseIdx i, isScanning := false, emitted := em } := by
        intro em
        have he : (s.running.eraseIdx i).length = 0 := by
          rw [List.length_eraseIdx, if_pos hi, hlen]
        simp [SingleFlight, he]
      split
      · exact processQueue_singleFlight _ (hbase _)
      · exact hbase _
    · exact h
  | stopDownload =>
    simp only [qstep, stopDownload, SingleFlight, abortCurrent_fields]
    exact h
  | clearQueue =>
    simp only [qstep, clearQueue, SingleFlight, abortCurrent_fields]
    exact h

theorem qrunFrom_singleFlight (steps : List QStep) (s : QueueState) (h : SingleFlight s) :
    SingleFlight (qrunFrom s steps) := by
  induction steps generalizing s with
  | nil => exact h
  | cons e rest ih => exact ih _ (qstep_singleFlight s e h)

theorem processQueue_fifo (s : QueueState) :
    (processQueue s).started ++ (processQueue s).searchQueue = s.started ++ s.searchQueue := by
  unfold processQueue
  split
  · rfl
  · split
    · rfl
    · rename_i task rest hq
      simp [abortCurrent_fields, hq]

theorem processQueue_idle (s : QueueState) (h : (processQueue s).isScanning = false) :
    (processQueue s).searchQueue = [] := by
  unfold processQueue at h ⊢
  split
  · rename_i hg
    rw [if_pos hg] at h
    simp only [Bool.or_eq_true, h, Bool.false_eq_true, false_or, beq_iff_eq] at hg
    exact List.length_eq_zero.mp hg
  · rename_i hg
    rw [if_neg hg] at h
    split
    · assumption
    · rename_i task rest hq
      simp [hq, abortCurrent_fields] at h

/-- Without `clear-queue`, a step keeps the started jobs followed by the
queued jobs equal to the jobs submitted so far. -/
theorem qstep_fifo (s : QueueState) (e : QStep) (he : e ≠ QStep.clearQueue) :
    (qstep s e).started ++ (qstep s e).searchQueue =
      s.started ++ s.searchQueue ++ submitted [e] := by
  cases e with
  | startDownload data =>
    simp only [qstep, startDownload, submitted]
    rw [processQueue_fifo]
    simp
  | jobEnd i o =>
    simp only [qstep, jobEnd, submitted, List.append_nil]
    split
    · split
      · rw [processQueue_fifo]
      · rfl
    · rfl
  | stopDownload =>
    simp [qstep, stopDownload, submitted, abortCurrent_fields]
  | clearQueue => exact absurd rfl he

theorem submitted_cons (e : QStep) (rest : List QStep) :
    submitted (e :: rest) = submitted [e] ++ submitted rest := by
  cases e <;> simp [submitted]

theorem qrunFrom_fifo (steps : List QStep) (s : QueueState)
    (h : ∀ e ∈ steps, e ≠ QStep.clearQueue) :
    (qrunFrom s steps).started ++ (qrunFrom s steps).searchQueue =
      s.started ++ s.searchQueue ++ submitted steps := by
  induction steps generalizing s with
  | nil => simp [qrunFrom, submitted]
  | cons e rest ih =>
    have h1 := ih (qstep s e) (fun x hx => h x (List.mem_cons_of_mem _ hx))
    have h2 := qstep_fifo s e (h e (List.mem_cons_self _ _))
    simp only [qrunFrom, List.foldl_cons] at h1 ⊢
    rw [h1, h2, submitted_cons e rest]
    simp

theorem qstep_noStall (s : QueueState) (e : QStep) (h : NoStall s) : NoStall (qstep s e) := by
  cases e with
  | startDownload data => exact processQueue_idle _
  | jobEnd i o =>
    simp only [qstep, jobEnd]
    split
    · split
      · exact processQueue_idle _
      · rename_i hq
        intro _
        simpa using hq
    · exact h
  | stopDownload =>
    simp only [qstep, stopDownload, NoStall, abortCurrent_fields]
    exact h
  | clearQueue =>
    simp [qstep, clearQueue, NoStall, abortCurrent_fields]

theorem qrunFrom_noStall (steps : List QStep) (s : QueueState) (h : NoStall s) :
    NoStall (qrunFrom s steps) := by
  induction steps generalizing s with
  | nil => exact h
  | cons e rest ih => exact ih _ (qstep_noStall s e h)

/-- The end of a job with a waiting queue starts the head of the queue. -/
theorem jobEnd_starts_head (s : QueueState) (i : Nat) (o : Outcome) (t : Job) (rest : List Job)
    (hi : i < s.running.length) (hq : s.searchQueue = t :: rest) :
    (jobEnd s i o).started = s.started ++ [t] ∧ (jobEnd s i o).searchQueue = rest ∧
      (jobEnd s i o).running = s.running.eraseIdx i ++ [(t, s.nextController)] := by
  simp [jobEnd, hi, hq, processQueue, abortCurrent_fields]

/-- From a state that satisfies the two invariants, as many job ends as
there are jobs in progress or queued start every queued job, in queue order,
and leave nothing queued or in progress. -/
theorem drain_starts_all (os : List Outcome) (s : QueueState) (hs : SingleFlight s)
    (hn : NoStall s) (hlen : os.length = s.searchQueue.length + s.running.length) :
    (qrunFrom s (os.map fun o => QStep.jobEnd 0 o)).started = s.started ++ s.searchQueue ∧
    (qrunFrom s (os.map fun o => QStep.jobEnd 0 o)).searchQueue = [] ∧
    (qrunFrom s (os.map fun o => QStep.jobEnd 0 o)).running = [] := by
  induction os generalizing s with
  | nil =>
    have h1 : s.searchQueue = [] := List.length_eq_zero.mp (by simp at hlen; omega)
    have h2 : s.running = [] := List.length_eq_zero.mp (by simp at hlen; omega)
    simp [qrunFrom, h1, h2]
  | cons o os ih =>
    have hrun : s.running.length = 1 := by
      rcases Nat.eq_zero_or_pos s.running.length with h0 | hpos
      · have hidle : s.isScanning = false := by
          cases hsc : s.isScanning with
          | false => rfl
          | true => have := hs.2.mp hsc; omega
        have := hn hidle
        simp [this, h0] at hlen
      · have := hs.1; omega
    have hi : 0 < s.running.length := by omega
    have hs1 := qstep_singleFlight s (QStep.jobEnd 0 o) hs
    have hn1 := qstep_noStall s (QStep.jobEnd 0 o) hn
    simp only [List.map_cons, qrunFrom, List.foldl_cons]
    cases hq : s.searchQueue with
    | nil =>
      have hos : os = [] := by simpa [hq, hrun] using hlen
      subst hos
      have he : (s.running.eraseIdx 0).length = 0 := by
        rw [List.length_eraseIdx, if_pos hi, hrun]
      simp only [List.map_nil, List.foldl_nil, qstep, jobEnd, hi, if_true, hq, List.length_nil,
        gt_iff_lt, Nat.lt_irrefl, if_false, List.append_nil]
      exact ⟨trivial, trivial, List.length_eq_zero.mp he⟩
    | cons t rest =>
      obtain ⟨j1, j2, j3⟩ := jobEnd_starts_head s 0 o t rest hi hq
      have hlen1 : os.length =
          (qstep s (QStep.jobEnd 0 o)).searchQueue.length +
          (qstep s (QStep.jobEnd 0 o)).running.length := by
        have he : (s.running.eraseIdx 0).length = 0 := by
          rw [List.length_eraseIdx, if_pos hi, hrun]
        simp only [qstep, j2, j3, List.length_append, he, List.length_singleton]
        simp only [hq, List.length_cons, hrun] at hlen
        omega
      obtain ⟨r1, r2, r3⟩ := ih (qstep s (QStep.jobEnd 0 o)) hs1 hn1 hlen1
      simp only [qrunFrom] at r1 r2 r3
      refine ⟨?_, r2, r3⟩
      rw [r1]
      simp only [qstep, j1, j2, List.append_assoc, List.singleton_append]

/-- C1: in the queue state machine started from the empty queue with
`isScanning` false, after every sequence of `start-download`, job-end,
`stop-download` and `clear-queue` steps at most one `startScraping`
invocation is in progress, and `isScanning` is true exactly when one is; and
`processQueue` starts an invocation only from a state where `isScanning` is
false. -/
theorem queue_single_flight (steps : List QStep) :
    (qrun steps).running.length ≤ 1 ∧
    ((qrun steps).isScanning = true ↔ (qrun steps).running.length = 1) ∧
    (∀ s : QueueState, s.isScanning = true → processQueue s = s) := by
  have h := qrunFrom_singleFlight steps QueueState.init (by simp [SingleFlight, QueueState.init])
  refine ⟨h.1, h.2, ?_⟩
  intro s hs
  simp [processQueue, hs]

/-- C2: for every sequence of steps without `clear-queue`, whatever the
outcome of each job, the jobs started so far followed by the jobs still queued
are the submitted jobs in submission order; the queue is empty whenever no job
is in progress, so that then every submitted job has been started, in order
and once; the end of a job with a non-empty queue starts the head of the
queue, whatever the outcome; and once the jobs in progress or queued have
ended, with whatever outcomes, the jobs started are exactly the submitted
jobs, in submission order. -/
theorem queue_fifo (steps : List QStep) (hclear : ∀ e ∈ steps, e ≠ QStep.clearQueue) :
    (qrun steps).started ++ (qrun steps).searchQueue = submitted steps ∧
    ((qrun steps).running = [] → (qrun steps).started = submitted steps) ∧
    (∀ (i : Nat) (o : Outcome) (t : Job) (rest : List Job),
      i < (qrun steps).running.length → (qrun steps).searchQueue = t :: rest →
      (jobEnd (qrun steps) i o).started = (qrun steps).started ++ [t] ∧
      (jobEnd (qrun steps) i o).searchQueue = rest) ∧
    (∀ os : List Outcome,
      os.length = (qrun steps).searchQueue.length + (qrun steps).running.length →
      (qrunFrom (qrun steps) (os.map fun o => QStep.jobEnd 0 o)).started = submitted steps ∧
      (qrunFrom (qrun steps) (os.map fun o => QStep.jobEnd 0 o)).running = []) := by
  have hf := qrunFrom_fifo steps QueueState.init hclear
  have hf : (qrun steps).started ++ (qrun steps).searchQueue = submitted steps := by
    simpa [qrun, QueueState.init] using hf
  have hs := qrunFrom_singleFlight steps QueueState.init (by simp [SingleFlight, QueueState.init])
  have hn := qrunFrom_noStall steps QueueState.init (by simp [NoStall, QueueState.init])
  refine ⟨hf, ?_, ?_, ?_⟩
  rotate_left 2
  · intro os hos
    obtain ⟨d1, _, d3⟩ := drain_starts_all os (qrun steps) hs hn hos
    exact ⟨by rw [d1, hf], d3⟩
  · intro hr
    have hidle : (qrun steps).isScanning = false := by
      cases hsc : (qrun steps).isScanning with
      | false => rfl
      | true =>
        have := hs.2.mp hsc
        simp [qrun] at hr
        simp [hr] at this
    have hq := hn hidle
    simp only [qrun] at hf ⊢
    rw [hq, List.append_nil] at hf
    exact hf
  · intro i o t rest hi hq
    have := jobEnd_starts_head (qrun steps) i o t rest hi hq
    exact ⟨this.1, this.2.1⟩

/-- C2, witness: three jobs are submitted; the first ends with an error, the
second is stopped and ends, the third throws; all three were started in
submission order. -/
theorem queue_fifo_witness :
    (qrun [QStep.startDownload ⟨"a", false, false⟩, QStep.startDownload ⟨"b", true, false⟩,
           QStep.jobEnd 0 Outcome.error, QStep.startDownload ⟨"c", false, true⟩,
           QStep.stopDownload, QStep.jobEnd 0 Outcome.stopped,
           QStep.jobEnd 0 Outcome.thrown]).started =
      [⟨"a", false, false⟩, ⟨"b", true, false⟩, ⟨"c", false, true⟩] :=
  (queue_fifo [QStep.startDownload ⟨"a", false, false⟩, QStep.startDownload ⟨"b", true, false⟩,
           QStep.jobEnd 0 Outcome.error, QStep.startDownload ⟨"c", false, true⟩,
           QStep.stopDownload, QStep.jobEnd 0 Outcome.stopped,
           QStep.jobEnd 0 Outcome.thrown] (by decide)).2.1 (by decide)

/-- C1, witness: with one job in progress and one waiting, a call of
`processQueue` changes nothing. -/
theorem queue_single_flight_witness :
    processQueue (qrun [QStep.startDownload ⟨"a", false, false⟩,
                        QStep.startDownload ⟨"b", true, false⟩]) =
      qrun [QStep.startDownload ⟨"a", false, false⟩, QStep.startDownload ⟨"b", true, false⟩] :=
  (queue_single_flight []).2.2 _ (by decide)

/-! ### Lemmas on strings and the resolver -/

theorem startsWithL_iff (s p : List Char) :
    startsWithL s p = true ↔ ∃ r, s = p ++ r := by
  induction p generalizing s with
  | nil => cases s <;> simp [startsWithL]
  | cons d p ih =>
    cases s with
    | nil => simp [startsWithL]
    | cons c s =>
      simp only [startsWithL, Bool.and_eq_true, beq_iff_eq, ih, List.cons_append,
        List.cons.injEq]
      constructor
      · rintro ⟨rfl, r, rfl⟩
        exact ⟨r, rfl, rfl⟩
      · rintro ⟨r, rfl, rfl⟩
        exact ⟨rfl, r, rfl⟩

theorem includesL_iff (s p : List Char) :
    includesL s p = true ↔ ∃ a b, s = a ++ p ++ b := by
  induction s with
  | nil =>
    simp only [includesL, startsWithL_iff]
    constructor
    · rintro ⟨r, hr⟩
      exact ⟨[], r, by simpa using hr⟩
    · rintro ⟨a, b, h⟩
      have h1 : a = [] ∧ p = [] ∧ b = [] := by
        simpa [List.append_eq_nil, and_assoc] using h.symm
      exact ⟨[], by simp [h1.2.1]⟩
  | cons c s ih =>
    simp only [includesL, Bool.or_eq_true, startsWithL_iff, ih]
    constructor
    · rintro (⟨r, hr⟩ | ⟨a, b, rfl⟩)
      · exact ⟨[], r, by simpa using hr⟩
      · exact ⟨c :: a, b, by simp⟩
    · rintro ⟨a, b, h⟩
      cases a with
      | nil => exact Or.inl ⟨b, by simpa using h⟩
      | cons x a =>
        simp only [List.cons_append, List.cons.injEq] at h
        exact Or.inr ⟨a, b, by simpa using h.2⟩

theorem removeFirstL_of_startsWith (pat s : List Char) (h : startsWithL s pat = true) :
    removeFirstL pat s = s.drop pat.length := by
  cases s with
  | nil =>
    cases pat with
    | nil => rfl
    | cons d p => simp [startsWithL] at h
  | cons c s => simp [removeFirstL, h]

theorem removeFirstL_of_not_includes (pat s : List Char) (h : includesL s pat = false) :
    removeFirstL pat s = s := by
  induction s with
  | nil => rfl
  | cons c s ih =>
    simp only [includesL, Bool.or_eq_false_iff] at h
    simp [removeFirstL, h.1, ih h.2]

/-- The first occurrence of the pattern is the one removed: the text before
it is kept, holds no earlier start of the pattern, and the text after it is
kept. -/
theorem removeFirstL_spec (pat s : List Char) (h : includesL s pat = true) :
    ∃ a b, s = a ++ pat ++ b ∧ removeFirstL pat s = a ++ b ∧
      ∀ a1 b1, s = a1 ++ pat ++ b1 → a.length ≤ a1.length := by
  induction s with
  | nil =>
    rw [includesL] at h
    obtain ⟨r, hr⟩ := (startsWithL_iff _ _).mp h
    have h1 : pat = [] ∧ r = [] := by simpa using hr.symm
    exact ⟨[], [], by simp [h1.1], by simp [removeFirstL], fun _ _ _ => by simp⟩
  | cons c s ih =>
    by_cases hs : startsWithL (c :: s) pat = true
    · obtain ⟨r, hr⟩ := (startsWithL_iff _ _).mp hs
      refine ⟨[], r, by simpa using hr, ?_, fun _ _ _ => by simp⟩
      rw [removeFirstL_of_startsWith _ _ hs, hr]
      simp
    · have hi : includesL s pat = true := by
        simp only [includesL, Bool.or_eq_true] at h
        exact h.resolve_left hs
      obtain ⟨a, b, hab, hrem, hmin⟩ := ih hi
      refine ⟨c :: a, b, by simp [hab], by simp [removeFirstL, hs, hrem], ?_⟩
      intro a1 b1 h1
      cases a1 with
      | nil =>
        exact absurd ((startsWithL_iff _ _).mpr ⟨b1, by simpa using h1⟩) hs
      | cons x a1 =>
        simp only [List.cons_append, List.cons.injEq] at h1
        have := hmin a1 b1 (by simpa using h1.2)
        simp only [List.length_cons]
        omega

theorem getSmartUrl_type_url (input : String) :
    (getSmartUrl input).type = ContentType.url ↔ startsWith input "http" = true := by
  unfold getSmartUrl
  split
  · simp [*]
  · rename_i h
    simp only [h, iff_false]
    split <;> simp

theorem any_keyword_iff (k : String) :
    (includes k "logo" || includes k "icon" || includes k "symbol" || includes k "png") = true ↔
      ∃ kw ∈ pngKeywords, ∃ a b, k.data = a ++ kw.data ++ b := by
  simp only [pngKeywords, includes, Bool.or_eq_true, includesL_iff, List.mem_cons,
    List.mem_singleton, exists_eq_or_imp, exists_eq_left, List.not_mem_nil, false_and,
    exists_false, or_false, or_assoc]

/-- C8, as stated, fails: an input that begins with `http` but not with
`http://` or `https://` is given the type `url`, although the statement makes
`url` the type exactly of the inputs with one of those two scheme prefixes (and
would make this input, which holds `logo`, a `png_search`). -/
theorem getSmartUrl_url_without_scheme :
    ¬ ((getSmartUrl "httpbin logo").type = ContentType.url ↔
        (startsWith "httpbin logo" "http://" = true ∨
         startsWith "httpbin logo" "https://" = true)) := by
  decide

/-- C8, amended: `getSmartUrl` returns exactly one of three types. The type is
`url`, with the input itself as the target, exactly when the input begins with
the four characters `http`; otherwise it is `png_search` exactly when the
lower-cased input contains one of `logo`, `icon`, `symbol`, `png`; and
`photo_search` in every remaining case. The three examples of the
specification evaluate as it says, and the keyword match ignores case. -/
theorem getSmartUrl_type (input : String) :
    ((getSmartUrl input).type = ContentType.url ↔ ∃ r, input.data = "http".data ++ r) ∧
    ((getSmartUrl input).type = ContentType.url → (getSmartUrl input).url = input) ∧
    ((getSmartUrl input).type = ContentType.png_search ↔
      (¬ ∃ r, input.data = "http".data ++ r) ∧
      ∃ kw ∈ pngKeywords, ∃ a b, (toLowerCase input).data = a ++ kw.data ++ b) ∧
    ((getSmartUrl input).type = ContentType.photo_search ↔
      (¬ ∃ r, input.data = "http".data ++ r) ∧
      ¬ ∃ kw ∈ pngKeywords, ∃ a b, (toLowerCase input).data = a ++ kw.data ++ b) ∧
    (getSmartUrl "company logo").type = ContentType.png_search ∧
    (getSmartUrl "Company LOGO").type = ContentType.png_search ∧
    (getSmartUrl "mountain sunset").type = ContentType.photo_search ∧
    getSmartUrl "https://example.com/gallery/" =
      { url := "https://example.com/gallery/", type := ContentType.url } := by
  have hs : startsWith input "http" = true ↔ ∃ r, input.data = "http".data ++ r :=
    startsWithL_iff _ _
  refine ⟨?_, ?_, ?_, ?_, by decide, by decide, by decide, by decide⟩
  · rw [getSmartUrl_type_url, hs]
  · intro h
    have := (getSmartUrl_type_url input).mp h
    simp [getSmartUrl, this]
  · rw [← hs, ← any_keyword_iff]
    unfold getSmartUrl
    split
    · simp [*]
    · rename_i h
      by_cases hk : (includes (toLowerCase input) "logo" || includes (toLowerCase input) "icon" ||
          includes (toLowerCase input) "symbol" || includes (toLowerCase input) "png") = true
      · simp only [hk, if_true]; simp [h]
      · simp only [hk]; simp [h]
  · rw [← hs, ← any_keyword_iff]
    unfold getSmartUrl
    split
    · simp [*]
    · rename_i h
      by_cases hk : (includes (toLowerCase input) "logo" || includes (toLowerCase input) "icon" ||
          includes (toLowerCase input) "symbol" || includes (toLowerCase input) "png") = true
      · simp only [hk, if_true]; simp [h]
      · simp only [hk]; simp [h]

/-- C9, as stated, fails: for the host `awww.example.com` the code removes the
`www.` that stands inside the host name, so the folder is `aexample_com_home`
and not the `awww_example_com_home` that removing only a leading `www.` gives. -/
theorem folderName_inner_www :
    folderName urlParseBasic "https://awww.example.com/" = some "aexample_com_home" ∧
    urlParseBasic "https://awww.example.com/" =
      { hostname := some "awww.example.com", pathname := some "/" } ∧
    folderName urlParseBasic "https://awww.example.com/" ≠
      some (specSanitizeHost "awww.example.com" ++ specSanitizePath "/") := by
  decide

/-- C9, amended: for an input that begins with `http` and whose parse has host
`H` and path `P`, the folder name is the sanitized host followed by the
sanitized path. The host sanitizer removes the first occurrence of `www.`,
wherever it stands (the leading one when `H` begins with it, none when `H` has
none), and then turns every dot into an underscore; the path sanitizer turns
every UTF-16 code unit that is not an ASCII letter or digit into an underscore
and yields `_home` when the result is the single underscore, as for the root
path `/` (which is also what the parser reports for an empty path). The two
examples of the specification evaluate as it says. -/
theorem folderName_url (urlParse : String → LegacyUrl) (input H P : String)
    (hhttp : startsWith input "http" = true)
    (hparse : urlParse input = { hostname := some H, pathname := some P }) :
    folderName urlParse input =
      some (dotsToUnderscores (removeWww H) ++
        (if sanitize P = "_" then "_home" else sanitize P)) ∧
    (P = "/" → (if sanitize P = "_" then "_home" else sanitize P) = "_home") ∧
    (startsWith H "www." = true → removeWww H = String.mk (H.data.drop 4)) ∧
    (includes H "www." = false → removeWww H = H) ∧
    (includes H "www." = true → ∃ a b, H.data = a ++ "www.".data ++ b ∧
      (removeWww H).data = a ++ b ∧
      ∀ a1 b1, H.data = a1 ++ "www.".data ++ b1 → a.length ≤ a1.length) ∧
    (sanitize P).data =
      P.data.flatMap (fun c => if isAlnum c then [c] else List.replicate (jsUnits c) '_') ∧
    folderName urlParseBasic "https://example.com/gallery/" = some "example_com_gallery_" ∧
    folderName urlParseBasic "https://www.example.com/" = some "example_com_home" ∧
    folderName urlParseBasic "https://www.example.com" = some "example_com_home" := by
  refine ⟨?_, ?_, ?_, ?_, ?_, rfl, by decide, by decide, by decide⟩
  · have ht : (getSmartUrl input).type = ContentType.url := (getSmartUrl_type_url input).mpr hhttp
    have hu : (getSmartUrl input).url = input := by simp [getSmartUrl, hhttp]
    simp [folderName, ht, hu, hparse]
  · rintro rfl
    decide
  · intro h
    simp only [removeWww]
    rw [removeFirstL_of_startsWith _ _ h]
    rfl
  · intro h
    simp only [removeWww]
    rw [removeFirstL_of_not_includes _ _ h]
  · intro h
    exact removeFirstL_spec _ _ h

/-- C9, witness: the amended statement at `https://www.example.com/gallery/`. -/
theorem folderName_url_witness :
    folderName urlParseBasic "https://www.example.com/gallery/" = some "example_com_gallery_" := by
  have h := (folderName_url urlParseBasic "https://www.example.com/gallery/"
    "www.example.com" "/gallery/" (by decide) (by decide)).1
  rw [h]
  decide

/-- C8, witness: a URL input is its own target. -/
theorem getSmartUrl_type_witness :
    (getSmartUrl "https://example.com/gallery/").url = "https://example.com/gallery/" :=
  (getSmartUrl_type "https://example.com/gallery/").2.1 (by decide)

/-! ### Lemmas on the history store -/

theorem find_isNone_iff (history : List HistoryEntry) (u : String) :
    (history.find? (fun h => h.url == u)).isNone = true ↔ ∀ x ∈ history, x.url ≠ u := by
  simp [List.find?_eq_none]

theorem saveHistory_present (history : List HistoryEntry) (e : HistoryEntry)
    (h : ∃ x ∈ history, x.url = e.url) : saveHistory (some history) e = history := by
  have : ¬ (history.find? (fun h => h.url == e.url)).isNone = true := by
    rw [find_isNone_iff]
    push_neg
    exact h
  simp only [saveHistory, getHistory]
  rw [if_neg this]

theorem saveHistory_absent (history : List HistoryEntry) (e : HistoryEntry)
    (h : ∀ x ∈ history, x.url ≠ e.url) : saveHistory (some history) e = e :: history := by
  simp only [saveHistory, getHistory]
  rw [if_pos ((find_isNone_iff history e.url).mpr h)]

theorem togglePinList_urls (history : List HistoryEntry) (u : String) :
    (togglePinList history u).map (fun h => h.url) = history.map (fun h => h.url) := by
  induction history with
  | nil => rfl
  | cons x rest ih =>
    simp only [togglePinList]
    split <;> simp [ih]

theorem saveHistory_unique (history : List HistoryEntry) (e : HistoryEntry)
    (h : UniqueByUrl history) : UniqueByUrl (saveHistory (some history) e) := by
  by_cases hp : ∃ x ∈ history, x.url = e.url
  · rw [saveHistory_present _ _ hp]; exact h
  · push_neg at hp
    rw [saveHistory_absent _ _ hp]
    simp only [UniqueByUrl, List.map_cons, List.nodup_cons, List.mem_map, not_exists, not_and]
    exact ⟨hp, h⟩

theorem removeHistory_unique (history : List HistoryEntry) (u : String)
    (h : UniqueByUrl history) : UniqueByUrl (removeHistory (some history) u) := by
  simp only [UniqueByUrl, removeHistory, getHistory]
  exact (List.Nodup.sublist (List.Sublist.map _ (List.filter_sublist _)) h)

theorem filter_url_length_one (history : List HistoryEntry) (u : String)
    (h : UniqueByUrl history) (hm : ∃ x ∈ history, x.url = u) :
    (history.filter (fun x => x.url == u)).length = 1 := by
  induction history with
  | nil => obtain ⟨x, hx, _⟩ := hm; cases hx
  | cons y rest ih =>
    simp only [UniqueByUrl, List.map_cons, List.nodup_cons, List.mem_map, not_exists,
      not_and] at h
    by_cases hy : y.url = u
    · have hnone : rest.filter (fun x => x.url == u) = [] := by
        rw [List.filter_eq_nil_iff]
        intro x hx
        have := h.1 x hx
        simp only [beq_iff_eq]
        rw [hy] at this
        exact this
      simp [List.filter_cons, hy, hnone]
    · have hm2 : ∃ x ∈ rest, x.url = u := by
        obtain ⟨x, hx, hxu⟩ := hm
        rcases List.mem_cons.mp hx with rfl | hx
        · exact absurd hxu hy
        · exact ⟨x, hx, hxu⟩
      simp [List.filter_cons, hy, ih h.2 hm2]

theorem saveHistory_has_url (history : List HistoryEntry) (e : HistoryEntry) :
    ∃ x ∈ saveHistory (some history) e, x.url = e.url := by
  by_cases hp : ∃ x ∈ history, x.url = e.url
  · rw [saveHistory_present _ _ hp]; exact hp
  · push_neg at hp
    rw [saveHistory_absent _ _ hp]
    exact ⟨e, List.mem_cons_self _ _, rfl⟩

/-- C10: on a stored history list unique by url, `saveHistory` with an entry
whose url is already present yields the list unchanged, and otherwise yields
the list with the entry prepended; upserting the same url a second time
changes nothing and leaves exactly one entry with that url; and the list is
still unique by url after `saveHistory`, after `toggle-pin` and after
`remove-history`. -/
theorem history_unique_by_url (history : List HistoryEntry) (e : HistoryEntry)
    (h : UniqueByUrl history) :
    ((∃ x ∈ history, x.url = e.url) → saveHistory (some history) e = history) ∧
    ((∀ x ∈ history, x.url ≠ e.url) → saveHistory (some history) e = e :: history) ∧
    (∀ e2 : HistoryEntry, e2.url = e.url →
      saveHistory (some (saveHistory (some history) e)) e2 = saveHistory (some history) e ∧
      ((saveHistory (some (saveHistory (some history) e)) e2).filter
        (fun x => x.url == e.url)).length = 1) ∧
    UniqueByUrl (saveHistory (some history) e) ∧
    (∀ u, UniqueByUrl (togglePin (some history) u)) ∧
    (∀ u, UniqueByUrl (removeHistory (some history) u)) := by
  refine ⟨saveHistory_present history e, saveHistory_absent history e, ?_,
    saveHistory_unique history e h, ?_, fun u => removeHistory_unique history u h⟩
  · intro e2 h2
    have hsame : saveHistory (some (saveHistory (some history) e)) e2 =
        saveHistory (some history) e := by
      apply saveHistory_present
      rw [h2]
      exact saveHistory_has_url history e
    rw [hsame]
    exact ⟨rfl, filter_url_length_one _ _ (saveHistory_unique history e h)
      (saveHistory_has_url history e)⟩
  · intro u
    simp only [UniqueByUrl, togglePin, getHistory, togglePinList_urls]
    exact h

/-- C10, witness: a one-entry history and a second submission of its url. -/
theorem history_unique_by_url_witness :
    saveHistory (some [{ url := "cats", folder := "downloads/search_photo_cats",
                         pinned := true, date := 1 }])
      { url := "cats", folder := "downloads/search_photo_cats", pinned := false, date := 2 } =
      [{ url := "cats", folder := "downloads/search_photo_cats", pinned := true, date := 1 }] :=
  (history_unique_by_url
    [{ url := "cats", folder := "downloads/search_photo_cats", pinned := true, date := 1 }]
    { url := "cats", folder := "downloads/search_photo_cats", pinned := false, date := 2 }
    (by simp [UniqueByUrl])).1 ⟨_, List.mem_singleton.mpr rfl, rfl⟩

/-! ### `path.extname` finds the extension of the last segment -/

theorem extnameLoop_slashes (l rest : List (Nat × Char)) (st : ExtScan)
    (hl : ∀ ic ∈ l, ic.2 = '/') (hm : st.matchedSlash = true) :
    extnameLoop (l ++ rest) st = extnameLoop rest st := by
  induction l with
  | nil => rfl
  | cons ic l ih =>
    obtain ⟨i, c⟩ := ic
    have hc : c = '/' := hl (i, c) (List.mem_cons_self _ _)
    simp only [List.cons_append, extnameLoop, hc, if_true, hm, Bool.not_true, Bool.false_eq_true,
      if_false]
    exact ih (fun x hx => hl x (List.mem_cons_of_mem _ hx))

theorem extnameLoop_segment (l rest : List (Nat × Char)) (st : ExtScan)
    (hl : ∀ ic ∈ l, ic.2 ≠ '/') :
    extnameLoop (l ++ rest) st = extnameLoop rest (l.foldl scanChar st) := by
  induction l generalizing st with
  | nil => rfl
  | cons ic l ih =>
    obtain ⟨i, c⟩ := ic
    have hc : c ≠ '/' := hl (i, c) (List.mem_cons_self _ _)
    simp only [List.cons_append, extnameLoop, hc, if_false, List.foldl_cons]
    exact ih _ (fun x hx => hl x (List.mem_cons_of_mem _ hx))

/-- The state of the scan after the characters of a segment that starts at
index `k`, computed from the left. -/
theorem foldl_scanChar_cons (k : Nat) (c : Char) (s : List Char) (st : ExtScan) :
    ((List.enumFrom k (c :: s)).reverse.foldl scanChar st) =
      scanChar ((List.enumFrom (k + 1) s).reverse.foldl scanChar st) (k, c) := by
  simp [List.enumFrom_cons, List.foldl_append]

theorem fromLastDot_suffix (s r : List Char) (h : fromLastDot s = some r) :
    ∃ p t, s = p ++ r ∧ r = '.' :: t ∧ '.' ∉ t := by
  induction s generalizing r with
  | nil => simp [fromLastDot] at h
  | cons c s ih =>
    simp only [fromLastDot] at h
    cases hs : fromLastDot s with
    | some r1 =>
      rw [hs] at h
      obtain ⟨p, t, hp, ht⟩ := ih r1 hs
      refine ⟨c :: p, t, ?_, ?_⟩
      · simp only [Option.some.injEq] at h
        rw [← h, List.cons_append, ← hp]
      · simp only [Option.some.injEq] at h
        rw [← h]
        exact ht
    | none =>
      rw [hs] at h
      by_cases hc : c = '.'
      · simp only [hc, if_true, Option.some.injEq] at h
        refine ⟨[], s, by simp [← h, hc], by rw [← h], ?_⟩
        intro hmem
        clear h ih
        induction s with
        | nil => cases hmem
        | cons d s ih2 =>
          simp only [fromLastDot] at hs
          cases hs2 : fromLastDot s with
          | some r2 => rw [hs2] at hs; cases hs
          | none =>
            rw [hs2] at hs
            by_cases hd : d = '.'
            · simp [hd] at hs
            · rcases List.mem_cons.mp hmem with h1 | h1
              · exact hd h1.symm
              · exact ih2 hs2 h1
      · simp [hc] at h

/-- The variables of the scan after a non-empty segment that starts at index
`k`, in terms of the last dot of the segment. -/
theorem scan_segment (k : Nat) (seg : List Char) (hseg : seg ≠ []) :
    ((List.enumFrom k seg).reverse.foldl scanChar ExtScan.init).endIdx =
      some (k + seg.length) ∧
    ((List.enumFrom k seg).reverse.foldl scanChar ExtScan.init).matchedSlash = false ∧
    ((List.enumFrom k seg).reverse.foldl scanChar ExtScan.init).startPart = 0 ∧
    (match fromLastDot seg with
     | none =>
       ((List.enumFrom k seg).reverse.foldl scanChar ExtScan.init).startDot = none ∧
       ((List.enumFrom k seg).reverse.foldl scanChar ExtScan.init).preDotState = 0
     | some r =>
       ((List.enumFrom k seg).reverse.foldl scanChar ExtScan.init).startDot =
         some (k + seg.length - r.length) ∧
       ((List.enumFrom k seg).reverse.foldl scanChar ExtScan.init).preDotState =
         (if r.length = seg.length then 0 else if seg.head? = some '.' then 1 else -1)) := by
  induction seg generalizing k with
  | nil => exact absurd rfl hseg
  | cons c s ih =>
    rw [foldl_scanChar_cons]
    cases s with
    | nil =>
      by_cases hc : c = '.'
      · subst hc
        simp [scanChar, ExtScan.init, fromLastDot]
      · simp [scanChar, ExtScan.init, fromLastDot, hc]
    | cons d s =>
      obtain ⟨h1, h2, h3, h4⟩ := ih (k + 1) (List.cons_ne_nil _ _)
      generalize (List.enumFrom (k + 1) (d :: s)).reverse.foldl scanChar ExtScan.init = st at *
      have hfl : fromLastDot (c :: d :: s) =
          match fromLastDot (d :: s) with
          | some r => some r
          | none => if c = '.' then some (c :: d :: s) else none := by
        simp only [fromLastDot]
      rw [hfl]
      cases hs : fromLastDot (d :: s) with
      | none =>
        rw [hs] at h4
        obtain ⟨h5, h6⟩ := h4
        by_cases hc : c = '.'
        · subst hc
          simp only [scanChar, h1, h2, h3, h5, h6, Option.isNone_some, Option.isNone_none,
            Bool.false_eq_true, if_false, if_true, List.length_cons, Option.some.injEq,
            List.head?_cons, true_and, and_true]
          refine ⟨by omega, by omega⟩
        · simp only [scanChar, h1, h2, h3, h5, h6, hc, Option.isNone_some, Option.isSome_none,
            Bool.false_eq_true, if_false, List.length_cons, Option.some.injEq, and_true, true_and]
          omega
      | some r =>
        rw [hs] at h4
        obtain ⟨h5, h6⟩ := h4
        obtain ⟨p, t, hp, _, _⟩ := fromLastDot_suffix _ _ hs
        have hrl : r.length ≤ (d :: s).length := by
          rw [hp]; simp
        simp only [List.length_cons] at hrl
        by_cases hc : c = '.'
        · subst hc
          by_cases h7 : st.preDotState = 1
          · simp only [scanChar, h1, h2, h3, h5, h7, Option.isNone_some, Bool.false_eq_true,
              if_false, if_true, List.length_cons, Option.some.injEq, List.head?_cons, ne_eq,
              not_true_eq_false, true_and]
            refine ⟨by omega, by omega, ?_⟩
            rw [if_neg (by omega)]
          · simp only [scanChar, h1, h2, h3, h5, h7, Option.isNone_some, Bool.false_eq_true,
              if_false, if_true, List.length_cons, Option.some.injEq, List.head?_cons, ne_eq,
              not_false_eq_true, true_and]
            refine ⟨by omega, by omega, ?_⟩
            rw [if_neg (by omega)]
        · simp only [scanChar, h1, h2, h3, h5, hc, Option.isNone_some, Option.isSome_some,
            Bool.false_eq_true, if_false, if_true, List.length_cons, Option.some.injEq,
            List.head?_cons, true_and]
          refine ⟨by omega, by omega, ?_⟩
          rw [if_neg (by omega)]

/-- The scan of a string made of a part `pre` that is empty or ends with `/`,
a non-empty segment without `/`, and trailing slashes: the variables are those
of the scan of the segment alone, with `startPart` at the start of the
segment. -/
theorem extnameLoop_last_segment (pre seg slashes : List Char)
    (hpre : pre = [] ∨ ∃ p, pre = p ++ ['/'])
    (hseg : seg ≠ []) (hns : '/' ∉ seg) (hsl : ∀ c ∈ slashes, c = '/') :
    extnameLoop (pre ++ seg ++ slashes).enum.reverse ExtScan.init =
      { (List.enumFrom pre.length seg).reverse.foldl scanChar ExtScan.init with
        startPart := pre.length } := by
  obtain ⟨_, h2, h3, _⟩ := scan_segment pre.length seg hseg
  have hsplit : (pre ++ seg ++ slashes).enum.reverse =
      (List.enumFrom (pre.length + seg.length) slashes).reverse ++
        ((List.enumFrom pre.length seg).reverse ++ (List.enumFrom 0 pre).reverse) := by
    simp [List.enum, List.enumFrom_append]
  rw [hsplit, extnameLoop_slashes _ _ _ _ rfl, extnameLoop_segment]
  · generalize (List.enumFrom pre.length seg).reverse.foldl scanChar ExtScan.init = st at *
    rcases hpre with rfl | ⟨p, rfl⟩
    · simp only [List.enumFrom_nil, List.reverse_nil, extnameLoop, List.length_nil]
      cases st
      simp only at h3
      simp [h3]
    · simp [List.enumFrom_append, extnameLoop, h2]
  · intro ic hic
    have := List.snd_mem_of_mem_enumFrom (List.mem_reverse.mp hic)
    intro heq
    exact hns (heq ▸ this)
  · intro ic hic
    exact hsl _ (List.snd_mem_of_mem_enumFrom (List.mem_reverse.mp hic))

/-- The function `path.extname` returns the extension of the last segment of
its argument: for a string made of a part that is empty or ends with `/`, a
non-empty segment without `/`, and trailing slashes, the result is the part
of the segment from its last dot, or the empty string when that dot is the
first character of the segment, when the segment has no dot, or when the
segment is `..`. -/
theorem extname_last_segment (pre seg slashes : List Char)
    (hpre : pre = [] ∨ ∃ p, pre = p ++ ['/'])
    (hseg : seg ≠ []) (hns : '/' ∉ seg) (hsl : ∀ c ∈ slashes, c = '/') :
    extname (String.mk (pre ++ seg ++ slashes)) = String.mk (segmentExt seg) := by
  obtain ⟨h1, _, _, h4⟩ := scan_segment pre.length seg hseg
  simp only [extname]
  rw [extnameLoop_last_segment pre seg slashes hpre hseg hns hsl]
  generalize (List.enumFrom pre.length seg).reverse.foldl scanChar ExtScan.init = st at *
  obtain ⟨c, s, rfl⟩ := List.exists_cons_of_ne_nil hseg
  cases hf : fromLastDot (c :: s) with
  | none =>
    rw [hf] at h4
    have hs : fromLastDot s = none := by
      simp only [fromLastDot] at hf
      cases hs : fromLastDot s with
      | none => rfl
      | some r => rw [hs] at hf; cases hf
    simp [h4.1, segmentExt, hs]
  | some r =>
    rw [hf] at h4
    obtain ⟨h5, h6⟩ := h4
    obtain ⟨p, t, hp, ht, _⟩ := fromLastDot_suffix _ _ hf
    cases hs : fromLastDot s with
    | none =>
      have hr : r = c :: s := by
        simp only [fromLastDot, hs] at hf
        by_cases hc : c = '.'
        · simpa [hc] using hf.symm
        · simp [hc] at hf
      have h60 : st.preDotState = 0 := by rw [h6, hr]; simp
      simp [h5, h1, h60, segmentExt, hs]
    | some r1 =>
      have hr : r = r1 := by
        simp only [fromLastDot, hs, Option.some.injEq] at hf
        exact hf.symm
      subst hr
      obtain ⟨p1, t1, hp1, _, _⟩ := fromLastDot_suffix _ _ hs
      have hlen : r.length ≤ s.length := by rw [hp1]; simp
      have hne : ¬ r.length = (c :: s).length := by simp only [List.length_cons]; omega
      rw [if_neg hne] at h6
      have hslice : ((pre ++ c :: s ++ slashes).drop (pre.length + (c :: s).length - r.length)).take
          (pre.length + (c :: s).length - (pre.length + (c :: s).length - r.length)) = r := by
        have e1 : pre.length + (c :: s).length - r.length = (pre ++ p).length := by
          have : (c :: s).length = p.length + r.length := by rw [hp]; simp
          simp only [List.length_append]
          omega
        have e2 : pre ++ c :: s ++ slashes = (pre ++ p) ++ (r ++ slashes) := by
          rw [hp]; simp
        have e3 : pre.length + (c :: s).length - (pre ++ p).length = r.length := by
          have : (c :: s).length = p.length + r.length := by rw [hp]; simp
          simp only [List.length_append]
          omega
        rw [e1, e2, List.drop_left, e3, List.take_left]
      simp only [h5, h1, segmentExt, hs]
      by_cases hdd : c :: s = ['.', '.']
      · have hc : c = '.' := by simpa using (List.cons.inj hdd).1
        have hs2 : s = ['.'] := (List.cons.inj hdd).2
        have hr1 : r = ['.'] := by
          subst hs2
          simpa [fromLastDot] using hs.symm
        subst hs2 hc hr1
        simp [h6]
      · rw [if_neg hdd]
        have hcond : ¬ (st.preDotState = 0 ∨ (st.preDotState = 1 ∧
            pre.length + (c :: s).length - r.length = pre.length + (c :: s).length - 1 ∧
            pre.length + (c :: s).length - r.length = pre.length + 1)) := by
          rintro (h0 | ⟨hp1', he1, he2⟩)
          · rw [h6] at h0
            split at h0 <;> simp at h0
          · apply hdd
            have hc : c = '.' := by
              rw [h6] at hp1'
              by_cases hc : c = '.'
              · exact hc
              · simp [hc] at hp1'
            have hrl : r.length = 1 := by simp only [List.length_cons] at he1 he2 ⊢; omega
            have hsl1 : s.length = 1 := by simp only [List.length_cons] at he1 he2 ⊢; omega
            have hsr : s = r := by
              have : p1.length = 0 := by
                have := congrArg List.length hp1
                simp only [List.length_append] at this
                omega
              rw [hp1, List.length_eq_zero.mp this]
              rfl
            rw [hc, hsr, ht]
            have : t = [] := by
              rw [ht] at hrl
              simpa using hrl
            rw [this]
        simp only [hcond, if_false]
        rw [hslice]

/-! ### Lemmas on the canonical URL and the file name -/

theorem stripParams_eq_filter (params : List (String × String)) :
    stripParams params = params.filter (fun nv => !strippedParams.contains nv.1) := by
  simp only [stripParams, strippedParams, List.foldl_cons, List.foldl_nil, deleteParam,
    List.filter_filter]
  apply List.filter_congr
  intro nv _
  simp only [List.contains_cons, List.contains_nil, Bool.or_false, Bool.not_or, bne,
    Bool.and_assoc]
  cases nv.1 == "w" <;> cases nv.1 == "h" <;> cases nv.1 == "width" <;>
    cases nv.1 == "height" <;> cases nv.1 == "resize" <;> rfl

theorem mem_stripParams (params : List (String × String)) (nv : String × String) :
    nv ∈ stripParams params ↔ nv ∈ params ∧ nv.1 ∉ strippedParams := by
  rw [stripParams_eq_filter]
  simp [List.mem_filter]

theorem bytesLE_length (k n : Nat) : (bytesLE k n).length = k := by
  induction k generalizing n with
  | zero => rfl
  | succ k ih => simp [bytesLE, ih]

theorem flatMap_pair_length (f g : Nat → Char) (l : List Nat) :
    (l.flatMap fun b => [f b, g b]).length = 2 * l.length := by
  induction l with
  | nil => rfl
  | cons x l ih =>
    simp only [List.flatMap_cons, List.length_append, List.length_cons, List.length_nil, ih]
    omega

theorem md5hex_length (s : String) : (md5hex s).data.length = 32 := by
  simp only [md5hex, md5HexBytes]
  rw [flatMap_pair_length]
  simp [bytesLE_length]

theorem hashOf_length (s : String) : (hashOf s).data.length = 10 := by
  have := md5hex_length s
  simp only [hashOf, List.length_take]
  omega

theorem ext_if_length (e : String) : jsLength (if jsLength e > 5 then ".jpg" else e) ≤ 5 := by
  by_cases h : jsLength e > 5
  · rw [if_pos h]; decide
  · rw [if_neg h]; omega

/-- The value of `ext` as a decision table over the raw extension (the result
of `path.extname` cut at the first `?`). -/
theorem deriveExt_table (searchType : ContentType) (cleanUrl : String) :
    deriveExt searchType cleanUrl =
      (let raw := String.mk (takeUntil (fun c => c == '?') (extname cleanUrl).data)
       if searchType = ContentType.png_search then
         if includes raw "png" = true then (if jsLength raw > 5 then ".jpg" else raw)
         else ".png"
       else if raw = "" ∨ jsLength raw > 5 then ".jpg" else raw) := by
  have hjpg : ¬ jsLength ".jpg" > 5 := by decide
  have hpng : ¬ jsLength ".png" > 5 := by decide
  have hinc : ¬ includes ".jpg" "png" = true := by decide
  have hemp : ¬ includes "" "png" = true := by decide
  simp only [deriveExt]
  generalize String.mk (takeUntil (fun c => c == '?') (extname cleanUrl).data) = raw
  by_cases ht : searchType = ContentType.png_search
  · by_cases he : raw = ""
    · subst he
      simp only [ht, if_true, true_and, hinc, hemp, not_false_eq_true, if_false, hpng,
        Bool.false_eq_true]
    · by_cases hi : includes raw "png" = true
      · simp only [ht, he, hi, if_true, if_false, true_and, not_true_eq_false]
      · simp only [ht, he, hi, if_false, if_true, true_and, not_false_eq_true, hpng,
          Bool.false_eq_true]
  · by_cases he : raw = ""
    · subst he
      simp only [ht, if_false, if_true, false_and, true_or, hjpg]
    · by_cases hl : jsLength raw > 5
      · simp only [ht, he, hl, if_false, if_true, false_and, or_true, false_or, hjpg]
      · simp only [ht, he, hl, if_false, false_and, or_false]

theorem deriveExt_length (searchType : ContentType) (cleanUrl : String) :
    jsLength (deriveExt searchType cleanUrl) ≤ 5 := by
  simp only [deriveExt]
  exact ext_if_length _

/-- C6, as stated, fails: two URLs that differ only in the order of their
remaining query parameters (`a=1&b=2` against `b=2&a=1`) have remaining
parameters that are the same pairs, yet their canonical URLs differ, and so do
their file names: nothing in `processBatch` sorts the parameters. -/
theorem canonical_keeps_order :
    parseURLBasic "https://x.com/a.png?a=1&b=2" =
      some { base := "https://x.com/a.png", params := [("a", "1"), ("b", "2")],
             fragment := none } ∧
    parseURLBasic "https://x.com/a.png?b=2&a=1" =
      some { base := "https://x.com/a.png", params := [("b", "2"), ("a", "1")],
             fragment := none } ∧
    (stripParams [("a", "1"), ("b", "2")]).Perm (stripParams [("b", "2"), ("a", "1")]) ∧
    cleanUrlOf parseURLBasic "https://x.com/a.png?a=1&b=2" = "https://x.com/a.png?a=1&b=2" ∧
    cleanUrlOf parseURLBasic "https://x.com/a.png?b=2&a=1" = "https://x.com/a.png?b=2&a=1" ∧
    cleanUrlOf parseURLBasic "https://x.com/a.png?a=1&b=2" ≠
      cleanUrlOf parseURLBasic "https://x.com/a.png?b=2&a=1" ∧
    fileName ContentType.url (cleanUrlOf parseURLBasic "https://x.com/a.png?a=1&b=2") ≠
      fileName ContentType.url (cleanUrlOf parseURLBasic "https://x.com/a.png?b=2&a=1") := by
  refine ⟨by decide, by decide, ?_, by decide, by decide, by decide, by decide⟩
  exact List.Perm.swap _ _ _

/-- C6, amended: two parseable image URLs that agree on everything before the
query and on the fragment, and whose query parameters other than `w`, `h`,
`width`, `height` and `resize` are the same name/value pairs in the same order
(with any stripped parameters added anywhere), get the same canonical URL and
therefore the same file name; and canonicalization removes every query
parameter named `w`, `h`, `width`, `height` or `resize`, removes no other
parameter and keeps the remaining ones in their order. -/
theorem canonical_same_order (parseURL : String → Option UrlRecord) (a b : String)
    (ua ub : UrlRecord) (ha : parseURL a = some ua) (hb : parseURL b = some ub)
    (hbase : ua.base = ub.base) (hfrag : ua.fragment = ub.fragment)
    (hparams : ua.params.filter (fun nv => !strippedParams.contains nv.1) =
      ub.params.filter (fun nv => !strippedParams.contains nv.1)) :
    cleanUrlOf parseURL a = cleanUrlOf parseURL b ∧
    (∀ searchType, fileName searchType (cleanUrlOf parseURL a) =
      fileName searchType (cleanUrlOf parseURL b)) ∧
    (∀ nv, nv ∈ stripParams ua.params ↔ nv ∈ ua.params ∧ nv.1 ∉ strippedParams) ∧
    stripParams ua.params = ua.params.filter (fun nv => !strippedParams.contains nv.1) ∧
    (stripParams ua.params).Sublist ua.params ∧
    cleanUrlOf parseURL a = UrlRecord.href { ua with params := stripParams ua.params } := by
  have hc : cleanUrlOf parseURL a = cleanUrlOf parseURL b := by
    simp only [cleanUrlOf, ha, hb, canonical, stripParams_eq_filter, hparams, hbase, hfrag]
  refine ⟨hc, fun t => by rw [hc], mem_stripParams ua.params, stripParams_eq_filter ua.params,
    ?_, ?_⟩
  · rw [stripParams_eq_filter]
    exact List.filter_sublist _
  · simp only [cleanUrlOf, ha, canonical]

/-- C6, witness: the resize variants `?w=100&v=2` and `?v=2&h=50&width=9` of
one image get the same canonical URL. -/
theorem canonical_same_order_witness :
    cleanUrlOf parseURLBasic "https://x.com/a.png?w=100&v=2" =
      cleanUrlOf parseURLBasic "https://x.com/a.png?v=2&h=50&width=9" :=
  (canonical_same_order parseURLBasic "https://x.com/a.png?w=100&v=2"
    "https://x.com/a.png?v=2&h=50&width=9"
    { base := "https://x.com/a.png", params := [("w", "100"), ("v", "2")], fragment := none }
    { base := "https://x.com/a.png", params := [("v", "2"), ("h", "50"), ("width", "9")],
      fragment := none }
    (by decide) (by decide) rfl rfl (by decide)).1

/-- C7, as stated, fails twice. For the content type `png_search` and the
canonical URL `https://x.com/a.png_large` the extension found, `.png_large`,
contains `png` and is kept by the png rule, and the length rule, which runs
last, then turns it into `.jpg`: the file name does not contain `png`, where
the statement gives `.png`. And for `https://x.com/photo?v=1.5` the extension
is `.5`, taken from the query, where the path `/photo` has no extension and
the statement gives `.jpg`. -/
theorem fileName_ext_differs :
    cleanUrlOf parseURLBasic "https://x.com/a.png_large" = "https://x.com/a.png_large" ∧
    fileName ContentType.png_search "https://x.com/a.png_large" = "67f6f9101c.jpg" ∧
    includes (deriveExt ContentType.png_search "https://x.com/a.png_large") "png" = false ∧
    specExt ContentType.png_search "/a.png_large" = ".png" ∧
    cleanUrlOf parseURLBasic "https://x.com/photo?v=1.5" = "https://x.com/photo?v=1.5" ∧
    deriveExt ContentType.url "https://x.com/photo?v=1.5" = ".5" ∧
    specExt ContentType.url "/photo" = ".jpg" := by
  refine ⟨by decide, by decide, by decide, by decide, by decide, by decide, by decide⟩

/-- C7, amended: the file name is the first 10 hex characters of the digest
of the canonical URL followed by an extension chosen as follows: the
extension that `path.extname` finds in the whole canonical URL string, cut at
the first `?`; replaced by `.jpg` when it is empty; then replaced by `.png`
when the content type is `png_search` and it does not contain `png`; and last
replaced by `.jpg` when it is longer than 5 code units. The extension is never
longer than 5 code units, and for `png_search` it contains `png` unless the
extension found contains `png` and is longer than 5 code units, in which case
it is `.jpg`. The extension that `path.extname` finds is that of the last
`/`-separated segment of the string, wherever in the URL that segment lies:
the part of the segment from its last dot, or nothing when the segment has no
dot, when that dot is its first character, or when the segment is `..`. -/
theorem fileName_shape (searchType : ContentType) (cleanUrl : String) :
    fileName searchType cleanUrl =
      String.mk ((md5hex cleanUrl).data.take 10) ++ deriveExt searchType cleanUrl ∧
    ((md5hex cleanUrl).data.take 10).length = 10 ∧
    deriveExt searchType cleanUrl =
      (let raw := String.mk (takeUntil (fun c => c == '?') (extname cleanUrl).data)
       if searchType = ContentType.png_search then
         if includes raw "png" = true then (if jsLength raw > 5 then ".jpg" else raw)
         else ".png"
       else if raw = "" ∨ jsLength raw > 5 then ".jpg" else raw) ∧
    jsLength (deriveExt searchType cleanUrl) ≤ 5 ∧
    (searchType = ContentType.png_search →
      includes (deriveExt searchType cleanUrl) "png" = true ∨
      (deriveExt searchType cleanUrl = ".jpg" ∧
        includes (String.mk (takeUntil (fun c => c == '?') (extname cleanUrl).data)) "png" = true ∧
        jsLength (String.mk (takeUntil (fun c => c == '?') (extname cleanUrl).data)) > 5)) ∧
    (∀ pre seg slashes : List Char, cleanUrl.data = pre ++ seg ++ slashes →
      (pre = [] ∨ ∃ p, pre = p ++ ['/']) → seg ≠ [] → '/' ∉ seg →
      (∀ c ∈ slashes, c = '/') → extname cleanUrl = String.mk (segmentExt seg)) ∧
    fileName ContentType.url "https://example.com/img/cat.jpeg?v=2" = "1bdb73ab24.jpeg" ∧
    fileName ContentType.png_search "https://example.com/img/cat.jpeg" = "f55e73eb13.png" ∧
    fileName ContentType.url "https://example.com/img/cat" = "2a4a51762f.jpg" := by
  refine ⟨rfl, hashOf_length cleanUrl, deriveExt_table searchType cleanUrl,
    deriveExt_length searchType cleanUrl, ?_, ?_, by decide, by decide, by decide⟩
  rotate_left
  · intro pre seg slashes hdata hpre hseg hns hsl
    have hcu : cleanUrl = String.mk (pre ++ seg ++ slashes) := by
      rw [← hdata]
    rw [hcu]
    exact extname_last_segment pre seg slashes hpre hseg hns hsl
  intro ht
  rw [deriveExt_table]
  simp only [ht, if_true]
  by_cases hi : includes (String.mk (takeUntil (fun c => c == '?') (extname cleanUrl).data))
      "png" = true
  · by_cases hl : jsLength (String.mk (takeUntil (fun c => c == '?') (extname cleanUrl).data)) > 5
    · right
      simp only [hi, hl, if_true]
      exact ⟨trivial, trivial, trivial⟩
    · left
      simp only [hi, hl, if_true, if_false]
  · left
    simp only [hi, if_false, Bool.false_eq_true]
    decide

/-- C7, witness: for `png_search` and `https://x.com/logo.svg` the extension
is forced to `.png`. -/
theorem fileName_shape_witness :
    includes (deriveExt ContentType.png_search "https://x.com/logo.svg") "png" = true ∨
    (deriveExt ContentType.png_search "https://x.com/logo.svg" = ".jpg" ∧
      includes (String.mk (takeUntil (fun c => c == '?')
        (extname "https://x.com/logo.svg").data)) "png" = true ∧
      jsLength (String.mk (takeUntil (fun c => c == '?')
        (extname "https://x.com/logo.svg").data)) > 5) :=
  (fileName_shape ContentType.png_search "https://x.com/logo.svg").2.2.2.2.1 rfl

/-! ### Lemmas on `processBatch` -/

theorem mem_setAdd (seen : List String) (u v : String) :
    v ∈ setAdd seen u ↔ v ∈ seen ∨ v = u := by
  unfold setAdd
  split
  · rename_i h
    have hu : u ∈ seen := by simpa using h
    constructor
    · exact Or.inl
    · rintro (h | rfl)
      · exact h
      · exact hu
  · simp

theorem batchLoop_seen_mono (env : JobEnv) (searchType : ContentType) (l : List String)
    (n : Nat) (st : JobState) (v : String) (hv : v ∈ st.seenUrls) :
    v ∈ (batchLoop env searchType l n st).2.seenUrls := by
  induction l generalizing n st with
  | nil => exact hv
  | cons u rest ih =>
    simp only [batchLoop]
    split
    · exact hv
    · split
      · exact ih _ _ ((mem_setAdd _ _ _).mpr (Or.inl hv))
      · exact ih _ _ ((mem_setAdd _ _ _).mpr (Or.inl hv))

theorem batchLoop_files_mono (env : JobEnv) (searchType : ContentType) (l : List String)
    (n : Nat) (st : JobState) (f : String) (hf : f ∈ st.files) :
    f ∈ (batchLoop env searchType l n st).2.files := by
  induction l generalizing n st with
  | nil => exact hf
  | cons u rest ih =>
    simp only [batchLoop]
    split
    · exact hf
    · split
      · exact ih _ _ hf
      · apply ih
        dsimp only
        split
        · exact List.mem_append_left _ hf
        · exact hf

/-- Every download call of the loop is made with the URL it is for already in
`seenUrls`, and with everything that was in `seenUrls` before the loop. -/
theorem batchLoop_attempts (env : JobEnv) (searchType : ContentType) (l : List String)
    (n : Nat) (st : JobState) :
    ∃ made, (batchLoop env searchType l n st).2.attempts = st.attempts ++ made ∧
      ∀ a ∈ made, a.imgUrl ∈ l ∧ a.imgUrl ∈ a.seenAtCall ∧
        (∀ v ∈ st.seenUrls, v ∈ a.seenAtCall) ∧
        a.url = cleanUrlOf env.parseURL a.imgUrl ∧ a.file = fileName searchType a.url := by
  induction l generalizing n st with
  | nil => exact ⟨[], by simp [batchLoop], by simp⟩
  | cons u rest ih =>
    simp only [batchLoop]
    split
    · exact ⟨[], by simp, by simp⟩
    · split
      · obtain ⟨made, h1, h2⟩ := ih n
          { st with reads := st.reads + 1, seenUrls := setAdd st.seenUrls u }
        refine ⟨made, h1, ?_⟩
        intro a ha
        obtain ⟨p1, p2, p3, p4⟩ := h2 a ha
        exact ⟨List.mem_cons_of_mem _ p1, p2,
          fun v hv => p3 v ((mem_setAdd _ _ _).mpr (Or.inl hv)), p4⟩
      · obtain ⟨made, h1, h2⟩ := ih
          (if env.download st.attempts.length (cleanUrlOf env.parseURL u) = true
            then n + 1 else n)
          { st with
            reads := st.reads + 1, seenUrls := setAdd st.seenUrls u,
            attempts := st.attempts ++
              [{ imgUrl := u, url := cleanUrlOf env.parseURL u,
                 file := fileName searchType (cleanUrlOf env.parseURL u),
                 seenAtCall := setAdd st.seenUrls u,
                 ok := env.download st.attempts.length (cleanUrlOf env.parseURL u) }],
            files := if env.download st.attempts.length (cleanUrlOf env.parseURL u) = true
              then st.files ++ [fileName searchType (cleanUrlOf env.parseURL u)]
              else st.files }
        refine ⟨{ imgUrl := u, url := cleanUrlOf env.parseURL u,
                  file := fileName searchType (cleanUrlOf env.parseURL u),
                  seenAtCall := setAdd st.seenUrls u,
                  ok := env.download st.attempts.length (cleanUrlOf env.parseURL u) } :: made,
          by rw [h1]; simp, ?_⟩
        intro a ha
        rcases List.mem_cons.mp ha with rfl | ha
        · exact ⟨List.mem_cons_self _ _, (mem_setAdd _ _ _).mpr (Or.inr rfl),
            fun v hv => (mem_setAdd _ _ _).mpr (Or.inl hv), rfl, rfl⟩
        · obtain ⟨p1, p2, p3, p4⟩ := h2 a ha
          exact ⟨List.mem_cons_of_mem _ p1, p2,
            fun v hv => p3 v ((mem_setAdd _ _ _).mpr (Or.inl hv)), p4⟩

/-- When no cancellation check of the loop sees the signal, every URL of the
list is in `seenUrls` at the end, whatever the downloads do. -/
theorem batchLoop_seen_all (env : JobEnv) (searchType : ContentType) (l : List String)
    (n : Nat) (st : JobState)
    (hab : ∀ k, st.reads ≤ k → k < st.reads + l.length → env.aborted k = false) :
    ∀ u ∈ l, u ∈ (batchLoop env searchType l n st).2.seenUrls := by
  induction l generalizing n st with
  | nil => simp
  | cons u rest ih =>
    have h0 : env.aborted st.reads = false := hab _ (Nat.le_refl _) (by simp)
    have hrest : ∀ k, st.reads + 1 ≤ k → k < st.reads + 1 + rest.length →
        env.aborted k = false := by
      intro k h1 h2
      exact hab k (by omega) (by simp only [List.length_cons]; omega)
    intro v hv
    simp only [batchLoop, h0, Bool.false_eq_true, if_false]
    rcases List.mem_cons.mp hv with rfl | hv
    · split
      · exact batchLoop_seen_mono _ _ _ _ _ _ ((mem_setAdd _ _ _).mpr (Or.inr rfl))
      · exact batchLoop_seen_mono _ _ _ _ _ _ ((mem_setAdd _ _ _).mpr (Or.inr rfl))
    · split
      · exact ih _ _ hrest v hv
      · exact ih _ _ hrest v hv

/-- When no cancellation check of the loop sees the signal and every download
succeeds, the file of every URL of the list is in the folder at the end. -/
theorem batchLoop_files_all (env : JobEnv) (searchType : ContentType) (l : List String)
    (n : Nat) (st : JobState)
    (hab : ∀ k, st.reads ≤ k → k < st.reads + l.length → env.aborted k = false)
    (hdl : ∀ k u, env.download k u = true) :
    ∀ u ∈ l, fileName searchType (cleanUrlOf env.parseURL u) ∈
      (batchLoop env searchType l n st).2.files := by
  induction l generalizing n st with
  | nil => simp
  | cons u rest ih =>
    have h0 : env.aborted st.reads = false := hab _ (Nat.le_refl _) (by simp)
    have hrest : ∀ k, st.reads + 1 ≤ k → k < st.reads + 1 + rest.length →
        env.aborted k = false := by
      intro k h1 h2
      exact hab k (by omega) (by simp only [List.length_cons]; omega)
    intro v hv
    simp only [batchLoop, h0, Bool.false_eq_true, if_false, hdl, if_true]
    rcases List.mem_cons.mp hv with rfl | hv
    · split
      · rename_i hc
        exact batchLoop_files_mono _ _ _ _ _ _ (by simpa using hc)
      · exact batchLoop_files_mono _ _ _ _ _ _ (by simp)
    · split
      · exact ih _ _ hrest v hv
      · exact ih _ _ hrest v hv

/-- When the file of every URL of the list is already in the folder, the loop
calls no download, saves nothing and leaves the folder as it is. -/
theorem batchLoop_all_present (env : JobEnv) (searchType : ContentType) (l : List String)
    (n : Nat) (st : JobState)
    (hp : ∀ u ∈ l, fileName searchType (cleanUrlOf env.parseURL u) ∈ st.files) :
    (batchLoop env searchType l n st).1 = n ∧
    (batchLoop env searchType l n st).2.attempts = st.attempts ∧
    (batchLoop env searchType l n st).2.files = st.files := by
  induction l generalizing st with
  | nil => simp [batchLoop]
  | cons u rest ih =>
    have hu : st.files.contains (fileName searchType (cleanUrlOf env.parseURL u)) = true := by
      simpa using hp u (List.mem_cons_self _ _)
    simp only [batchLoop, hu, if_true]
    split
    · simp
    · exact ih _ (fun v hv => hp v (List.mem_cons_of_mem _ hv))

theorem newBatchOf_fresh (foundImages : List String) : newBatchOf foundImages [] = foundImages := by
  simp [newBatchOf]

theorem mem_newBatchOf (foundImages seenUrls : List String) (u : String) :
    u ∈ newBatchOf foundImages seenUrls ↔ u ∈ foundImages ∧ u ∉ seenUrls := by
  simp [newBatchOf, List.mem_filter]

/-- C4, as stated, fails. With two new URLs and no cancellation, the first
download is called while `seenUrls` holds only the first URL: each URL is
added inside the loop, just before its own download. And when the second
cancellation check of the batch sees the signal, the loop breaks before adding
the second URL, which is then not in `seenUrls` when `processBatch` returns
and is in the `newBatch` of the next batch again. -/
theorem processBatch_seen_lags :
    newBatchOf ["https://x.com/a.jpg", "https://x.com/b.jpg"] [] =
      ["https://x.com/a.jpg", "https://x.com/b.jpg"] ∧
    ((processBatchOn (quietEnv (fun _ => []) 99) ContentType.url
        ["https://x.com/a.jpg", "https://x.com/b.jpg"] (JobState.start none [])).2.attempts.map
      fun a => (a.imgUrl, a.seenAtCall)) =
      [("https://x.com/a.jpg", ["https://x.com/a.jpg"]),
       ("https://x.com/b.jpg", ["https://x.com/a.jpg", "https://x.com/b.jpg"])] ∧
    (processBatchOn (quietEnv (fun _ => []) 1) ContentType.url
        ["https://x.com/a.jpg", "https://x.com/b.jpg"] (JobState.start none [])).2.seenUrls =
      ["https://x.com/a.jpg"] ∧
    newBatchOf ["https://x.com/a.jpg", "https://x.com/b.jpg"]
      (processBatchOn (quietEnv (fun _ => []) 1) ContentType.url
        ["https://x.com/a.jpg", "https://x.com/b.jpg"] (JobState.start none [])).2.seenUrls =
      ["https://x.com/b.jpg"] := by
  refine ⟨by decide, by decide, by decide, by decide⟩

/-- C4, amended: for every call of `processBatch`, on every extracted URL
list, every seen set and every timing of cancellation and download failure:
each URL of `newBatch` for which a download is attempted is in `seenUrls`
before that download is attempted, and nothing ever leaves `seenUrls`; and
when no cancellation check of the batch sees the signal, every URL of
`newBatch` is in `seenUrls` when `processBatch` returns, whatever downloads
fail, so a later batch of the same job never puts any of them in its
`newBatch` again. -/
theorem processBatch_seen_before_download (env : JobEnv) (searchType : ContentType)
    (foundImages : List String) (st : JobState) :
    (∃ made, (processBatchOn env searchType foundImages st).2.attempts = st.attempts ++ made ∧
      ∀ a ∈ made, a.imgUrl ∈ newBatchOf foundImages st.seenUrls ∧ a.imgUrl ∈ a.seenAtCall) ∧
    (∀ v ∈ st.seenUrls, v ∈ (processBatchOn env searchType foundImages st).2.seenUrls) ∧
    ((∀ k, st.reads ≤ k → k < st.reads + (newBatchOf foundImages st.seenUrls).length →
        env.aborted k = false) →
      ∀ u ∈ newBatchOf foundImages st.seenUrls,
        u ∈ (processBatchOn env searchType foundImages st).2.seenUrls ∧
        ∀ later : List String,
          u ∉ newBatchOf later (processBatchOn env searchType foundImages st).2.seenUrls) := by
  refine ⟨?_, ?_, ?_⟩
  · obtain ⟨made, h1, h2⟩ :=
      batchLoop_attempts env searchType (newBatchOf foundImages st.seenUrls) 0 st
    exact ⟨made, h1, fun a ha => ⟨(h2 a ha).1, (h2 a ha).2.1⟩⟩
  · intro v hv
    exact batchLoop_seen_mono _ _ _ _ _ _ hv
  · intro hab u hu
    have hin := batchLoop_seen_all env searchType _ 0 st hab u hu
    refine ⟨hin, fun later hl => ?_⟩
    exact ((mem_newBatchOf _ _ _).mp hl).2 hin

/-- C4, witness: a batch of two URLs whose first download fails, with no
cancellation: both URLs are in `seenUrls` at the end. -/
theorem processBatch_seen_before_download_witness :
    "https://x.com/b.jpg" ∈
      (processBatchOn
        { quietEnv (fun _ => []) 99 with download := fun k _ => decide (0 < k) }
        ContentType.url ["https://x.com/a.jpg", "https://x.com/b.jpg"]
        (JobState.start none [])).2.seenUrls :=
  ((processBatch_seen_before_download
      { quietEnv (fun _ => []) 99 with download := fun k _ => decide (0 < k) }
      ContentType.url ["https://x.com/a.jpg", "https://x.com/b.jpg"]
      (JobState.start none [])).2.2 (by decide) "https://x.com/b.jpg" (by decide)).1

/-- C5: with the target folder as a set of file names and a download that
either adds its file name or adds nothing: when a first `processBatch` run
with a fresh seen set meets no cancellation and has all its downloads succeed,
a second run with a fresh seen set on the same extracted list and the
resulting folder (under any cancellation and download behaviour) attempts no
download, returns 0 and leaves the folder unchanged. -/
theorem processBatch_rerun_idempotent (env1 env2 : JobEnv) (searchType : ContentType)
    (foundImages : List String) (st1 st2 : JobState)
    (hfresh1 : st1.seenUrls = []) (hfresh2 : st2.seenUrls = [])
    (hparse : env2.parseURL = env1.parseURL)
    (hab : ∀ k, st1.reads ≤ k → k < st1.reads + foundImages.length → env1.aborted k = false)
    (hdl : ∀ k u, env1.download k u = true)
    (hfiles : st2.files = (processBatchOn env1 searchType foundImages st1).2.files) :
    (processBatchOn env2 searchType foundImages st2).1 = 0 ∧
    (processBatchOn env2 searchType foundImages st2).2.attempts = st2.attempts ∧
    (processBatchOn env2 searchType foundImages st2).2.files = st2.files := by
  have h1 := batchLoop_files_all env1 searchType foundImages 0 st1 hab hdl
  simp only [processBatchOn, hfresh1, hfresh2, newBatchOf_fresh] at hfiles ⊢
  apply batchLoop_all_present
  intro u hu
  rw [hfiles, hparse]
  exact h1 u hu

/-- C5, witness: two runs on the same three extracted URLs (two of them
resize variants of one image), from an empty folder. -/
theorem processBatch_rerun_idempotent_witness :
    (processBatchOn (quietEnv (fun _ => []) 99) ContentType.url
      ["https://x.com/a.jpg?w=100", "https://x.com/b.jpg", "https://x.com/a.jpg?w=200"]
      (JobState.start none ["cbaeeba23b.jpg", "5c4b67e725.jpg"])).1 = 0 :=
  (processBatch_rerun_idempotent (quietEnv (fun _ => []) 99) (quietEnv (fun _ => []) 99)
    ContentType.url
    ["https://x.com/a.jpg?w=100", "https://x.com/b.jpg", "https://x.com/a.jpg?w=200"]
    (JobState.start none []) (JobState.start none ["cbaeeba23b.jpg", "5c4b67e725.jpg"])
    rfl rfl rfl (by intro k _ hk; simp [JobState.start] at hk; simp [quietEnv]; omega)
    (by intro k u; rfl) (by decide)).1

/-! ### The outcomes of `startScraping` under cancellation -/

/-- When the cancellation check at job start sees the signal, the job ends
stopped: it emits the log line and one `done` message of status `stopped`,
and does nothing else. -/
theorem startScraping_stopped_at_start (env : JobEnv) (userInput : String) (isLoopMode : Bool)
    (fuel : Nat) (st : JobState) (h : env.aborted st.reads = true) (hb : st.browser = false) :
    startScraping env userInput isLoopMode fuel st =
      some ({ st with reads := st.reads + 1,
                      emitted := st.emitted ++
                        [Emit.log "🛑 Stopped/Skipped.", Emit.done none Status.stopped] },
            none) := by
  simp [startScraping, tryBlock, h, catchBlock, hb]

/-- C3, the runs that break it. In loop mode, when the signal is first seen
by the `while` check (read 1), or by the per-URL check of the second URL
(read 3) and then by the `while` check, the loop just ends and the job emits
no `done` message at all. In standard mode, when the signal is seen by the
per-URL check of the second URL (read 2), the batch breaks and the job emits
`done` with status `completed`. Only the check at job start (read 0) leads to
`done` with status `stopped`. -/
theorem startScraping_cancel_outcomes :
    (startScraping (quietEnv (fun _ => ["https://x.com/a.jpg", "https://x.com/b.jpg"]) 1)
      "cats" true 10 (JobState.start none [])).map (fun r => doneStatuses r.1.emitted) =
      some [] ∧
    (startScraping (quietEnv (fun _ => ["https://x.com/a.jpg", "https://x.com/b.jpg"]) 3)
      "cats" true 10 (JobState.start none [])).map (fun r => doneStatuses r.1.emitted) =
      some [] ∧
    (startScraping (quietEnv (fun _ => ["https://x.com/a.jpg", "https://x.com/b.jpg"]) 2)
      "cats" false 10 (JobState.start none [])).map (fun r => doneStatuses r.1.emitted) =
      some [Status.completed] ∧
    (startScraping (quietEnv (fun _ => ["https://x.com/a.jpg", "https://x.com/b.jpg"]) 0)
      "cats" false 10 (JobState.start none [])).map (fun r => doneStatuses r.1.emitted) =
      some [Status.stopped] := by
  refine ⟨by decide, by decide, by decide, by decide⟩

end Server
